import Mathlib

/-!
Verification of the replay-and-matching backtest engine.

The definitions below are a shallow embedding of the engine found in
src/strategies/backtester.py: the per-product position limits, the
limit guard, the matching engine (buy and sell sides), the per-timestamp
session step including mark-to-market accounting, and the merging of two
session results.

Python dictionaries with integer keys (the per-price resting volumes of
an order book) are embedded as association lists in which the first
binding for a key wins on lookup, updating replaces the first binding
(appending when absent), and deleting removes the first binding, which
matches dict semantics whenever keys are unique.  Mappings keyed by
product name are embedded as total functions from String, mirroring
defaultdict semantics with an explicit default.  All monetary amounts in
the engine are integer valued (book prices and volumes are ints), so
cash and profit-and-loss are embedded as integers; the reference mid
price, which is genuinely fractional, is embedded as a rational.
-/

namespace Backtester

/-- Per-product position limits, from the LIMITS table of the source. -/
def LIMITS : String → ℤ := fun p =>
  if p = "PEARLS" then 20
  else if p = "BANANAS" then 20
  else if p = "COCONUTS" then 600
  else if p = "PINA_COLADAS" then 300
  else if p = "DIVING_GEAR" then 50
  else if p = "BERRIES" then 250
  else if p = "BAGUETTE" then 150
  else if p = "DIP" then 300
  else if p = "UKULELE" then 70
  else if p = "PICNIC_BASKET" then 70
  else 0

/-- A trade record, as in the datamodel Trade class. -/
structure Trade where
  symbol : String
  price : ℤ
  quantity : ℤ
  buyer : String
  seller : String
  timestamp : ℤ
deriving Repr, DecidableEq

/-- A proposed order from the decision algorithm. -/
structure Order where
  symbol : String
  price : ℤ
  quantity : ℤ
deriving Repr, DecidableEq

/-- Lookup in an int-keyed dict embedded as an association list; the
first binding wins, absent keys give 0 (the source only reads keys that
are present). -/
def lookup0 : List (ℤ × ℤ) → ℤ → ℤ
  | [], _ => 0
  | kv :: rest, k => if kv.1 = k then kv.2 else lookup0 rest k

/-- Dict assignment: replace the first binding of the key, or append a
new binding when the key is absent. -/
def setK : List (ℤ × ℤ) → ℤ → ℤ → List (ℤ × ℤ)
  | [], k, v => [(k, v)]
  | kv :: rest, k, v => if kv.1 = k then (k, v) :: rest else kv :: setK rest k v

/-- Dict deletion: remove the first binding of the key. -/
def eraseK : List (ℤ × ℤ) → ℤ → List (ℤ × ℤ)
  | [], _ => []
  | kv :: rest, k => if kv.1 = k then rest else kv :: eraseK rest k

/-- The keys of an int-keyed dict. -/
def keysOf (l : List (ℤ × ℤ)) : List ℤ := l.map Prod.fst

/-- An order book for one product: buy side and sell side, each a dict
from price to resting volume.  Sell volumes are stored negative, exactly
as the source stores them. -/
structure OrderDepth where
  buy_orders : List (ℤ × ℤ)
  sell_orders : List (ℤ × ℤ)
deriving Repr, DecidableEq

/-- Result of running the matching loop of one order against one side of
a book: the mutated side, the remaining order quantity, the emitted
trades, and the accumulated position and cash deltas. -/
structure ExecResult where
  book : List (ℤ × ℤ)
  qty : ℤ
  trades : List Trade
  posDelta : ℤ
  cashDelta : ℤ
deriving Repr, DecidableEq

/-- The matching loop for a buy order (source lines 220 to 235): walk
the precomputed list of matchable ask prices, fill min(remaining,
resting) at each level, add the fill to the stored negative volume and
pop the level when it reaches zero, and break as soon as the remaining
quantity reaches zero. -/
def execBuy (sym : String) (ts : ℤ) : List (ℤ × ℤ) → List ℤ → ℤ → ExecResult
  | sell, [], qty => ⟨sell, qty, [], 0, 0⟩
  | sell, p :: rest, qty =>
    let lv := lookup0 sell p
    let v := min qty |lv|
    let sell1 := if lv + v = 0 then eraseK sell p else setK sell p (lv + v)
    let tr : Trade := ⟨sym, p, v, "SUBMISSION", "", ts⟩
    let qty1 := qty - v
    if qty1 = 0 then ⟨sell1, qty1, [tr], v, -(p * v)⟩
    else
      let r := execBuy sym ts sell1 rest qty1
      ⟨r.book, r.qty, tr :: r.trades, v + r.posDelta, -(p * v) + r.cashDelta⟩

/-- The matching loop for a sell order (source lines 237 to 252): walk
the precomputed list of matchable bid prices, fill min(abs remaining,
resting) at each level, subtract the fill from the resting volume and
pop the level when it reaches zero, and break as soon as the remaining
(negative) quantity reaches zero. -/
def execSell (sym : String) (ts : ℤ) : List (ℤ × ℤ) → List ℤ → ℤ → ExecResult
  | buy, [], qty => ⟨buy, qty, [], 0, 0⟩
  | buy, p :: rest, qty =>
    let bv := lookup0 buy p
    let v := min |qty| bv
    let buy1 := if bv - v = 0 then eraseK buy p else setK buy p (bv - v)
    let tr : Trade := ⟨sym, p, v, "", "SUBMISSION", ts⟩
    let qty1 := qty + v
    if qty1 = 0 then ⟨buy1, qty1, [tr], -v, p * v⟩
    else
      let r := execSell sym ts buy1 rest qty1
      ⟨r.book, r.qty, tr :: r.trades, -v + r.posDelta, p * v + r.cashDelta⟩

/-- Matchable ask prices for a buy order: prices at most the limit
price, in ascending order (sorted of the filtered dict keys). -/
def buyMatches (sell : List (ℤ × ℤ)) (limit : ℤ) : List ℤ :=
  List.insertionSort (· ≤ ·) ((keysOf sell).filter (fun p => decide (p ≤ limit)))

/-- Matchable bid prices for a sell order: prices at least the limit
price, in descending order (reverse-sorted of the filtered dict keys). -/
def sellMatches (buy : List (ℤ × ℤ)) (limit : ℤ) : List ℤ :=
  List.insertionSort (· ≥ ·) ((keysOf buy).filter (fun p => decide (limit ≤ p)))

/-- The matching engine on one accepted buy order: match the sell side
of the book against the matchable ask prices. -/
def matchBuyOrder (sell : List (ℤ × ℤ)) (limit qty : ℤ) (sym : String) (ts : ℤ) :
    ExecResult :=
  execBuy sym ts sell (buyMatches sell limit) qty

/-- The matching engine on one accepted sell order: match the buy side
of the book against the matchable bid prices. -/
def matchSellOrder (buy : List (ℤ × ℤ)) (limit qty : ℤ) (sym : String) (ts : ℤ) :
    ExecResult :=
  execSell sym ts buy (sellMatches buy limit) qty

/-- Engine-side mutable state threaded through the matching phase:
per-product books, positions, cash, and the own trades accumulated at
the current timestamp. -/
structure ExecSt where
  depths : String → OrderDepth
  pos : String → ℤ
  cash : String → ℤ
  own : String → List Trade

/-- Pointwise update of a String-keyed mapping. -/
def upd {α : Type} (f : String → α) (k : String) (v : α) : String → α :=
  fun x => if x = k then v else f x

/-- Execute one order: dispatch on the sign of the quantity, match
against the book of the order symbol, and fold the resulting deltas into
the engine state.  A zero-quantity order does nothing. -/
def execOrder (ts : ℤ) (st : ExecSt) (o : Order) : ExecSt :=
  let d := st.depths o.symbol
  if 0 < o.quantity then
    let r := matchBuyOrder d.sell_orders o.price o.quantity o.symbol ts
    { depths := upd st.depths o.symbol { d with sell_orders := r.book }
      pos := upd st.pos o.symbol (st.pos o.symbol + r.posDelta)
      cash := upd st.cash o.symbol (st.cash o.symbol + r.cashDelta)
      own := upd st.own o.symbol (st.own o.symbol ++ r.trades) }
  else if o.quantity < 0 then
    let r := matchSellOrder d.buy_orders o.price o.quantity o.symbol ts
    { depths := upd st.depths o.symbol { d with buy_orders := r.book }
      pos := upd st.pos o.symbol (st.pos o.symbol + r.posDelta)
      cash := upd st.cash o.symbol (st.cash o.symbol + r.cashDelta)
      own := upd st.own o.symbol (st.own o.symbol ++ r.trades) }
  else st

/-- Execute a batch of orders in the order the algorithm returned them,
each order reading the book state left by the previous one. -/
def processOrders (ts : ℤ) (st : ExecSt) (os : List Order) : ExecSt :=
  os.foldl (execOrder ts) st

/-- The matching phase of one timestamp: for each tradable product,
execute its surviving orders. -/
def runMatching (ts : ℤ) (tradable : List String) (orders : String → List Order)
    (st : ExecSt) : ExecSt :=
  tradable.foldl (fun s p => processOrders ts s (orders p)) st

/-- Total requested buy volume of a batch: sum of the positive
quantities. -/
def total_long (os : List Order) : ℤ :=
  ((os.filter (fun o => decide (0 < o.quantity))).map (fun o => o.quantity)).sum

/-- Total requested sell volume of a batch: sum of the absolute values
of the negative quantities. -/
def total_short (os : List Order) : ℤ :=
  ((os.filter (fun o => decide (o.quantity < 0))).map (fun o => |o.quantity|)).sum

/-- The limit-guard rejection condition of source line 210. -/
def limitExceeded (limit pos : ℤ) (os : List Order) : Prop :=
  limit < pos + total_long os ∨ pos - total_short os < -limit

instance (limit pos : ℤ) (os : List Order) : Decidable (limitExceeded limit pos os) :=
  inferInstanceAs (Decidable (_ ∨ _))

/-- A rejection log row, as appended by the submission-log section. -/
structure SubmissionLogRow where
  timestamp : ℤ
  data : String
deriving Repr, DecidableEq

/-- Rebasing a rejection row during a merge: the source replaces the
timestamp by the argument (it does not add it). -/
def SubmissionLogRow.with_offset (r : SubmissionLogRow) (new_timestamp : ℤ) :
    SubmissionLogRow :=
  ⟨new_timestamp, r.data⟩

/-- The rejection message of source line 211. -/
def rejectionRow (ts : ℤ) (limits : String → ℤ) (p : String) : SubmissionLogRow :=
  ⟨ts, "Orders for product " ++ p ++ " exceeded limit of " ++ toString (limits p) ++ " set"⟩

/-- One step of the limit-guard loop over tradable products: when the
requested totals breach the limit, drop the whole batch of the product
and append one rejection row. -/
def guardStep (limits : String → ℤ) (pos : String → ℤ) (ts : ℤ)
    (acc : (String → List Order) × List SubmissionLogRow) (p : String) :
    (String → List Order) × List SubmissionLogRow :=
  if limitExceeded (limits p) (pos p) (acc.1 p) then
    (upd acc.1 p [], acc.2 ++ [rejectionRow ts limits p])
  else acc

/-- The limit guard over all tradable products (source lines 202 to
212). -/
def runGuard (limits : String → ℤ) (tradable : List String)
    (orders : String → List Order) (pos : String → ℤ) (ts : ℤ) :
    (String → List Order) × List SubmissionLogRow :=
  tradable.foldl (guardStep limits pos ts) (orders, [])

/-- One row of the historical price feed. -/
structure PriceRow where
  day : ℤ
  timestamp : ℤ
  product : String
  bid_prices : List ℤ
  bid_volumes : List ℤ
  ask_prices : List ℤ
  ask_volumes : List ℤ
  mid_price : ℚ
  profit_loss : ℚ
deriving Repr, DecidableEq

/-- The product classification of source line 164: a product is
tradable when some of its price rows has a nonempty bid side. -/
def tradable_products (prices : List PriceRow) : List String :=
  (prices.filter (fun r => decide (0 < r.bid_prices.length))).map (fun r => r.product)

/-- The product classification of source line 165: a product is
non-tradable when some of its price rows has an empty bid side. -/
def non_tradable_products (prices : List PriceRow) : List String :=
  (prices.filter (fun r => decide (r.bid_prices.length = 0))).map (fun r => r.product)

/-- Modelled from the spec (glossary): a product has a quoted level when
one of its rows has at least one bid or ask level.  This is the
classification the specification describes; it is compared against the
classification the source computes. -/
def specHasQuotedLevel (prices : List PriceRow) (p : String) : Prop :=
  ∃ r ∈ prices, r.product = p ∧ (r.bid_prices ≠ [] ∨ r.ask_prices ≠ [])

instance (prices : List PriceRow) (p : String) :
    Decidable (specHasQuotedLevel prices p) :=
  inferInstanceAs (Decidable (∃ r ∈ prices, _ ∧ (_ ∨ _)))

/-- One activity log row; the seventeen semicolon-separated columns of
the source are embedded as named fields, with none standing for the
empty-string placeholder of an absent book level. -/
structure ActivityLogRow where
  day : ℤ
  timestamp : ℤ
  product : String
  bid_price_1 : Option ℤ
  bid_volume_1 : Option ℤ
  bid_price_2 : Option ℤ
  bid_volume_2 : Option ℤ
  bid_price_3 : Option ℤ
  bid_volume_3 : Option ℤ
  ask_price_1 : Option ℤ
  ask_volume_1 : Option ℤ
  ask_price_2 : Option ℤ
  ask_volume_2 : Option ℤ
  ask_price_3 : Option ℤ
  ask_volume_3 : Option ℤ
  mid_price : ℚ
  profit_loss : ℤ
deriving Repr, DecidableEq

/-- Rebasing an activity row during a merge: add the timestamp offset to
column 1 and the profit-and-loss offset to the last column, leaving
every other column untouched. -/
def ActivityLogRow.with_offset (r : ActivityLogRow) (timestamp_offset : ℤ)
    (profit_loss_offset : ℤ) : ActivityLogRow :=
  { r with
    timestamp := r.timestamp + timestamp_offset
    profit_loss := r.profit_loss + profit_loss_offset }

/-- The conservative unrealized value of a position (source lines 258 to
261): a short position is valued at the best ask, a long position at the
best bid, a flat position at zero. -/
def markToMarket (pos : ℤ) (row : PriceRow) : ℤ :=
  if pos < 0 then pos * row.ask_prices.headD 0
  else if 0 < pos then pos * row.bid_prices.headD 0
  else 0

/-- The activity row written for a tradable product (source lines 254 to
288); the day column is the literal 0 the source writes. -/
def tradableActivityRow (ts : ℤ) (row : PriceRow) (pos cash : ℤ) : ActivityLogRow where
  day := 0
  timestamp := ts
  product := row.product
  bid_price_1 := row.bid_prices[0]?
  bid_volume_1 := row.bid_volumes[0]?
  bid_price_2 := row.bid_prices[1]?
  bid_volume_2 := row.bid_volumes[1]?
  bid_price_3 := row.bid_prices[2]?
  bid_volume_3 := row.bid_volumes[2]?
  ask_price_1 := row.ask_prices[0]?
  ask_volume_1 := row.ask_volumes[0]?
  ask_price_2 := row.ask_prices[1]?
  ask_volume_2 := row.ask_volumes[1]?
  ask_price_3 := row.ask_prices[2]?
  ask_volume_3 := row.ask_volumes[2]?
  mid_price := row.mid_price
  profit_loss := cash + markToMarket pos row

/-- The activity row written for a non-tradable product (source lines
290 to 295): blank levels, the reference mid price, and zero
profit-and-loss. -/
def observationActivityRow (ts : ℤ) (row : PriceRow) : ActivityLogRow where
  day := 0
  timestamp := ts
  product := row.product
  bid_price_1 := none
  bid_volume_1 := none
  bid_price_2 := none
  bid_volume_2 := none
  bid_price_3 := none
  bid_volume_3 := none
  ask_price_1 := none
  ask_volume_1 := none
  ask_price_2 := none
  ask_volume_2 := none
  ask_price_3 := none
  ask_volume_3 := none
  mid_price := row.mid_price
  profit_loss := 0

/-- A diagnostic log row holding the text the algorithm printed. -/
structure SandboxLogRow where
  timestamp : ℤ
  data : String
deriving Repr, DecidableEq

/-- Rebasing a diagnostic row during a merge: add the offset to the
timestamp and textually substitute the two timestamp marker forms inside
the opaque data. -/
def SandboxLogRow.with_offset (r : SandboxLogRow) (timestamp_offset : ℤ) :
    SandboxLogRow :=
  let new_timestamp := r.timestamp + timestamp_offset
  let d1 := r.data.replace ("\"timestamp\":" ++ toString r.timestamp)
    ("\"timestamp\":" ++ toString new_timestamp)
  let d2 := d1.replace ("\"t\":" ++ toString r.timestamp)
    ("\"t\":" ++ toString new_timestamp)
  ⟨new_timestamp, d2⟩

/-- The bundle of log rows produced by one session. -/
structure DayResult where
  round : ℤ
  day : ℤ
  sandbox_logs : List SandboxLogRow
  submission_logs : List SubmissionLogRow
  activity_logs : List ActivityLogRow
deriving Repr, DecidableEq

/-- The per-product profit-and-loss offsets collected by merge_results
from the final-timestamp activity rows of the earlier result; when
merging of profit and loss is not requested every offset is zero. -/
def plOffsets (merge_profit_loss : Bool) (rows : List ActivityLogRow)
    (lastTs : ℤ) : String → ℤ :=
  (rows.reverse.takeWhile (fun r => r.timestamp == lastTs)).foldl
    (fun f r => upd f r.product (if merge_profit_loss then r.profit_loss else 0))
    (fun _ => 0)

/-- The merge of two session results (source lines 315 to 335). -/
def merge_results (a b : DayResult) (merge_profit_loss : Bool) : DayResult :=
  let a_last_timestamp := ((a.sandbox_logs.getLast?).map SandboxLogRow.timestamp).getD 0
  let timestamp_offset := a_last_timestamp + 100
  let offs := plOffsets merge_profit_loss a.activity_logs a_last_timestamp
  { round := a.round
    day := a.day
    sandbox_logs := a.sandbox_logs ++
      b.sandbox_logs.map (fun r => r.with_offset timestamp_offset)
    submission_logs := a.submission_logs ++
      b.submission_logs.map (fun r => r.with_offset timestamp_offset)
    activity_logs := a.activity_logs ++
      b.activity_logs.map (fun r => r.with_offset timestamp_offset (offs r.product)) }

/-- Truncation toward zero, the Python int() conversion on a rational. -/
def pyTrunc (q : ℚ) : ℤ := Int.tdiv q.num q.den

/-- The session state handed to the decision algorithm each timestamp. -/
structure TradingState where
  timestamp : ℤ
  listings : List String
  order_depths : String → OrderDepth
  own_trades : String → List Trade
  market_trades : String → List Trade
  position : List (String × ℤ)
  observations : List (String × ℤ)

/-- What the decision algorithm returns for one call: the proposed
orders keyed by product, and the text it printed. -/
structure TraderOutput where
  orders : String → List Order
  log : String

/-- The engine state carried from one timestamp to the next. -/
structure SessionAcc where
  positions : String → ℤ
  seashells : String → ℤ
  own_trades : String → List Trade
  sandbox_logs : List SandboxLogRow
  submission_logs : List SubmissionLogRow
  activity_logs : List ActivityLogRow

/-- The fixed inputs of one session: the decision algorithm, the limit
table, the product classification, and the indexed historical data. -/
structure SessionParams where
  trader : TradingState → TraderOutput
  limits : String → ℤ
  tradable : List String
  non_tradable : List String
  priceAt : ℤ → String → PriceRow
  tradesAt : ℤ → String → List Trade

/-- Build one book from the level arrays of a price row: bid levels as
positive resting volumes, ask levels negated (source lines 182 to
188). -/
def buildDepth (row : PriceRow) : OrderDepth where
  buy_orders :=
    (row.bid_prices.zip row.bid_volumes).foldl (fun m pv => setK m pv.1 pv.2) []
  sell_orders :=
    (row.ask_prices.zip row.ask_volumes).foldl (fun m pv => setK m pv.1 (-pv.2)) []

/-- The session state built at one timestamp (source lines 179 to 194):
fresh books for tradable products, the own trades accumulated by the
previous timestamp, the historical trades of this timestamp, the nonzero
positions, and truncated mid-price observations for non-tradable
products. -/
def stateFor (P : SessionParams) (acc : SessionAcc) (ts : ℤ) : TradingState where
  timestamp := ts
  listings := P.tradable
  order_depths := fun p =>
    if p ∈ P.tradable then buildDepth (P.priceAt ts p) else ⟨[], []⟩
  own_trades := acc.own_trades
  market_trades := P.tradesAt ts
  position := (P.tradable.filter (fun p => decide (acc.positions p ≠ 0))).map
    (fun p => (p, acc.positions p))
  observations := P.non_tradable.map (fun p => (p, pyTrunc (P.priceAt ts p).mid_price))

/-- The intermediate values of one timestamp step: the algorithm output,
the orders surviving the limit guard, the rejection rows, and the engine
state after matching. -/
structure StepTrace where
  out : TraderOutput
  accepted : String → List Order
  rejections : List SubmissionLogRow
  ex : ExecSt

/-- Run the decision algorithm, the limit guard and the matching engine
for one timestamp, exposing the intermediate values. -/
def stepTrace (P : SessionParams) (acc : SessionAcc) (ts : ℤ) : StepTrace :=
  let st := stateFor P acc ts
  let out := P.trader st
  let g := runGuard P.limits P.tradable out.orders acc.positions ts
  let ex := runMatching ts P.tradable g.1
    { depths := st.order_depths
      pos := acc.positions
      cash := acc.seashells
      own := fun _ => [] }
  ⟨out, g.1, g.2, ex⟩

/-- One full timestamp of the session loop (source lines 178 to 295). -/
def stepTimestamp (P : SessionParams) (acc : SessionAcc) (ts : ℤ) : SessionAcc :=
  let t := stepTrace P acc ts
  { positions := t.ex.pos
    seashells := t.ex.cash
    own_trades := t.ex.own
    sandbox_logs := acc.sandbox_logs ++ [⟨ts, t.out.log⟩]
    submission_logs := acc.submission_logs ++ t.rejections
    activity_logs := acc.activity_logs ++
      P.tradable.map (fun p =>
        tradableActivityRow ts (P.priceAt ts p) (t.ex.pos p) (t.ex.cash p)) ++
      P.non_tradable.map (fun p => observationActivityRow ts (P.priceAt ts p)) }

/-- The engine state at the start of a session: zero positions, zero
cash, no trades, empty logs. -/
def initialAcc : SessionAcc where
  positions := fun _ => 0
  seashells := fun _ => 0
  own_trades := fun _ => []
  sandbox_logs := []
  submission_logs := []
  activity_logs := []

/-- A whole session: fold the timestamp step over the replayed
timestamps in order. -/
def runSession (P : SessionParams) (timestamps : List ℤ) : SessionAcc :=
  timestamps.foldl (stepTimestamp P) initialAcc

/-- The signed position contribution of one own trade: positive when the
simulated participant bought, negative when it sold. -/
def signedVolume (t : Trade) : ℤ :=
  if t.buyer = "SUBMISSION" then t.quantity else -t.quantity

/-- Total quantity filled at one price over a trade list. -/
def fillAt (trades : List Trade) (x : ℤ) : ℤ :=
  ((trades.filter (fun t => t.price == x)).map (fun t => t.quantity)).sum

theorem lookup0_cons_self (kv : ℤ × ℤ) (rest : List (ℤ × ℤ)) :
    lookup0 (kv :: rest) kv.1 = kv.2 := by
  simp [lookup0]

theorem lookup0_setK_self (l : List (ℤ × ℤ)) (k v : ℤ) :
    lookup0 (setK l k v) k = v := by
  induction l with
  | nil => simp [setK, lookup0]
  | cons kv rest ih =>
    by_cases h : kv.1 = k
    · simp [setK, h, lookup0]
    · simp [setK, h, lookup0, ih]

theorem lookup0_setK_ne (l : List (ℤ × ℤ)) (k v x : ℤ) (h : k ≠ x) :
    lookup0 (setK l k v) x = lookup0 l x := by
  induction l with
  | nil => simp [setK, lookup0, if_neg h]
  | cons kv rest ih =>
    by_cases hk : kv.1 = k
    · subst hk
      simp only [setK, if_pos rfl, lookup0, if_neg h]
    · simp only [setK, if_neg hk, lookup0, ih]

theorem lookup0_eraseK_ne (l : List (ℤ × ℤ)) (k x : ℤ) (h : k ≠ x) :
    lookup0 (eraseK l k) x = lookup0 l x := by
  induction l with
  | nil => simp [eraseK]
  | cons kv rest ih =>
    by_cases hk : kv.1 = k
    · subst hk
      simp [eraseK, lookup0, h]
    · simp only [eraseK, if_neg hk, lookup0, ih]

theorem mem_keysOf_lookup0 (l : List (ℤ × ℤ)) (x : ℤ)
    (h : x ∉ keysOf l) : lookup0 l x = 0 := by
  induction l with
  | nil => rfl
  | cons kv rest ih =>
    simp only [keysOf, List.map_cons, List.mem_cons, not_or] at h
    have hne : kv.1 ≠ x := fun hc => h.1 hc.symm
    simp only [lookup0, if_neg hne]
    exact ih h.2

theorem keysOf_setK_mem (l : List (ℤ × ℤ)) (k v : ℤ) (h : k ∈ keysOf l) :
    keysOf (setK l k v) = keysOf l := by
  induction l with
  | nil => cases h
  | cons kv rest ih =>
    by_cases hk : kv.1 = k
    · simp [setK, hk, keysOf]
    · have h2 : k ∈ keysOf rest := by
        simp only [keysOf, List.map_cons, List.mem_cons] at h
        rcases h with h1 | h1
        · exact absurd h1.symm hk
        · exact h1
      simp only [setK, if_neg hk, keysOf, List.map_cons]
      rw [show List.map Prod.fst (setK rest k v) = List.map Prod.fst rest from ih h2]

theorem keysOf_setK_not_mem (l : List (ℤ × ℤ)) (k v : ℤ) (h : k ∉ keysOf l) :
    keysOf (setK l k v) = keysOf l ++ [k] := by
  induction l with
  | nil => simp [setK, keysOf]
  | cons kv rest ih =>
    simp only [keysOf, List.map_cons, List.mem_cons, not_or] at h
    have hk : kv.1 ≠ k := fun hc => h.1 hc.symm
    simp only [setK, if_neg hk, keysOf, List.map_cons]
    rw [show List.map Prod.fst (setK rest k v)
      = List.map Prod.fst rest ++ [k] from ih h.2]
    simp

theorem mem_keysOf_eraseK (l : List (ℤ × ℤ)) (k x : ℤ)
    (hnd : (keysOf l).Nodup) :
    x ∈ keysOf (eraseK l k) ↔ x ∈ keysOf l ∧ x ≠ k := by
  induction l with
  | nil => simp [eraseK, keysOf]
  | cons kv rest ih =>
    simp only [keysOf, List.map_cons, List.nodup_cons] at hnd
    by_cases hk : kv.1 = k
    · subst hk
      simp only [eraseK, if_pos rfl, keysOf, List.map_cons, List.mem_cons]
      constructor
      · intro hx
        refine ⟨Or.inr hx, fun hc => ?_⟩
        subst hc
        exact hnd.1 hx
      · rintro ⟨hx | hx, hne⟩
        · exact absurd hx hne
        · exact hx
    · simp only [eraseK, if_neg hk, keysOf, List.map_cons, List.mem_cons]
      rw [show List.map Prod.fst (eraseK rest k) = keysOf (eraseK rest k) from rfl]
      rw [ih hnd.2]
      constructor
      · rintro (hx | ⟨hx, hne⟩)
        · subst hx
          exact ⟨Or.inl rfl, fun hc => hk hc⟩
        · exact ⟨Or.inr hx, hne⟩
      · rintro ⟨hx | hx, hne⟩
        · exact Or.inl hx
        · exact Or.inr ⟨hx, hne⟩

theorem keysOf_eraseK_nodup (l : List (ℤ × ℤ)) (k : ℤ)
    (hnd : (keysOf l).Nodup) : (keysOf (eraseK l k)).Nodup := by
  induction l with
  | nil => simp [eraseK, keysOf]
  | cons kv rest ih =>
    simp only [keysOf, List.map_cons, List.nodup_cons] at hnd
    by_cases hk : kv.1 = k
    · simpa [eraseK, hk, keysOf] using hnd.2
    · simp only [eraseK, if_neg hk, keysOf, List.map_cons, List.nodup_cons]
      refine ⟨fun hc => ?_, ih hnd.2⟩
      have : kv.1 ∈ keysOf rest := by
        have h2 := (mem_keysOf_eraseK rest k kv.1 hnd.2).1 hc
        exact h2.1
      exact hnd.1 this

theorem keysOf_setK_nodup (l : List (ℤ × ℤ)) (k v : ℤ)
    (hnd : (keysOf l).Nodup) : (keysOf (setK l k v)).Nodup := by
  by_cases h : k ∈ keysOf l
  · rw [keysOf_setK_mem l k v h]
    exact hnd
  · rw [keysOf_setK_not_mem l k v h]
    simp [List.nodup_append, hnd, h]

theorem setK_forall_values {P : ℤ → Prop} (l : List (ℤ × ℤ)) (k v : ℤ)
    (h : ∀ pv ∈ l, P pv.2) (hv : P v) : ∀ pv ∈ setK l k v, P pv.2 := by
  induction l with
  | nil =>
    intro pv hpv
    simp only [setK, List.mem_singleton] at hpv
    subst hpv
    exact hv
  | cons kv rest ih =>
    by_cases hk : kv.1 = k
    · simp only [setK, if_pos hk]
      intro pv hpv
      rcases List.mem_cons.1 hpv with h1 | h1
      · subst h1; exact hv
      · exact h pv (List.mem_cons_of_mem _ h1)
    · simp only [setK, if_neg hk]
      intro pv hpv
      rcases List.mem_cons.1 hpv with h1 | h1
      · rw [h1]; exact h kv (List.mem_cons_self _ _)
      · exact ih (fun q hq => h q (List.mem_cons_of_mem _ hq)) pv h1

theorem eraseK_subset (l : List (ℤ × ℤ)) (k : ℤ) :
    ∀ pv ∈ eraseK l k, pv ∈ l := by
  induction l with
  | nil => simp [eraseK]
  | cons kv rest ih =>
    by_cases hk : kv.1 = k
    · simp only [eraseK, if_pos hk]
      intro pv hpv
      exact List.mem_cons_of_mem _ hpv
    · simp only [eraseK, if_neg hk]
      intro pv hpv
      rcases List.mem_cons.1 hpv with h1 | h1
      · subst h1; exact List.mem_cons_self _ _
      · exact List.mem_cons_of_mem _ (ih pv h1)

theorem lookup0_eraseK_self (l : List (ℤ × ℤ)) (k : ℤ)
    (hnd : (keysOf l).Nodup) : lookup0 (eraseK l k) k = 0 := by
  apply mem_keysOf_lookup0
  intro hc
  exact ((mem_keysOf_eraseK l k k hnd).1 hc).2 rfl

theorem lookup0_nonneg (l : List (ℤ × ℤ)) (x : ℤ)
    (h : ∀ pv ∈ l, 0 ≤ pv.2) : 0 ≤ lookup0 l x := by
  induction l with
  | nil => simp [lookup0]
  | cons kv rest ih =>
    by_cases hk : kv.1 = x
    · simpa [lookup0, hk] using h kv (List.mem_cons_self _ _)
    · simp only [lookup0, if_neg hk]
      exact ih fun q hq => h q (List.mem_cons_of_mem _ hq)

theorem execBuy_totals (sym : String) (ts : ℤ) (pm : List ℤ) :
    ∀ (sell : List (ℤ × ℤ)) (qty : ℤ),
      (execBuy sym ts sell pm qty).posDelta
          = (((execBuy sym ts sell pm qty).trades.map (fun t => t.quantity)).sum)
      ∧ (execBuy sym ts sell pm qty).cashDelta
          = -(((execBuy sym ts sell pm qty).trades.map
              (fun t => t.price * t.quantity)).sum)
      ∧ (execBuy sym ts sell pm qty).qty
          = qty - (execBuy sym ts sell pm qty).posDelta := by
  induction pm with
  | nil =>
    intro sell qty
    simp [execBuy]
  | cons p rest ih =>
    intro sell qty
    simp only [execBuy]
    by_cases h : qty - min qty |lookup0 sell p| = 0
    · rw [if_pos h]
      refine ⟨by simp, by simp, by simp⟩
    · rw [if_neg h]
      obtain ⟨h1, h2, h3⟩ := ih
        (if lookup0 sell p + min qty |lookup0 sell p| = 0 then eraseK sell p
         else setK sell p (lookup0 sell p + min qty |lookup0 sell p|))
        (qty - min qty |lookup0 sell p|)
      refine ⟨?_, ?_, ?_⟩
      · simp [h1]
      · simp [h2]
        try ring
      · simp [h3]
        try omega

theorem execBuy_trades_prices (sym : String) (ts : ℤ) (pm : List ℤ) :
    ∀ (sell : List (ℤ × ℤ)) (qty : ℤ),
      (execBuy sym ts sell pm qty).trades.map (fun t => t.price)
          = pm.take (execBuy sym ts sell pm qty).trades.length
      ∧ ((execBuy sym ts sell pm qty).qty ≠ 0 →
          (execBuy sym ts sell pm qty).trades.map (fun t => t.price) = pm) := by
  induction pm with
  | nil =>
    intro sell qty
    simp [execBuy]
  | cons p rest ih =>
    intro sell qty
    simp only [execBuy]
    by_cases h : qty - min qty |lookup0 sell p| = 0
    · rw [if_pos h]
      refine ⟨by simp, ?_⟩
      intro hq
      exact absurd h (by simpa using hq)
    · rw [if_neg h]
      obtain ⟨h1, h2⟩ := ih
        (if lookup0 sell p + min qty |lookup0 sell p| = 0 then eraseK sell p
         else setK sell p (lookup0 sell p + min qty |lookup0 sell p|))
        (qty - min qty |lookup0 sell p|)
      refine ⟨by simp [h1], ?_⟩
      intro hq
      simp only [List.map_cons]
      rw [h2 (by simpa using hq)]

theorem execBuy_fields (sym : String) (ts : ℤ) (pm : List ℤ) :
    ∀ (sell : List (ℤ × ℤ)) (qty : ℤ), 0 ≤ qty →
      0 ≤ (execBuy sym ts sell pm qty).qty
      ∧ ∀ t ∈ (execBuy sym ts sell pm qty).trades,
          t.symbol = sym ∧ t.buyer = "SUBMISSION" ∧ t.seller = ""
          ∧ t.timestamp = ts ∧ 0 ≤ t.quantity := by
  induction pm with
  | nil =>
    intro sell qty hq
    simp [execBuy, hq]
  | cons p rest ih =>
    intro sell qty hq
    have hv : 0 ≤ min qty |lookup0 sell p| := le_min hq (abs_nonneg _)
    simp only [execBuy]
    by_cases h : qty - min qty |lookup0 sell p| = 0
    · rw [if_pos h]
      refine ⟨by simp [h], ?_⟩
      intro t ht
      simp only [List.mem_singleton] at ht
      subst ht
      exact ⟨rfl, rfl, rfl, rfl, hv⟩
    · rw [if_neg h]
      have hq1 : 0 ≤ qty - min qty |lookup0 sell p| := by
        have := min_le_left qty |lookup0 sell p|
        omega
      obtain ⟨ih1, ih2⟩ := ih
        (if lookup0 sell p + min qty |lookup0 sell p| = 0 then eraseK sell p
         else setK sell p (lookup0 sell p + min qty |lookup0 sell p|))
        (qty - min qty |lookup0 sell p|) hq1
      refine ⟨by simpa using ih1, ?_⟩
      intro t ht
      simp only [List.mem_cons] at ht
      rcases ht with ht | ht
      · subst ht
        exact ⟨rfl, rfl, rfl, rfl, hv⟩
      · exact ih2 t ht

theorem execSell_totals (sym : String) (ts : ℤ) (pm : List ℤ) :
    ∀ (buy : List (ℤ × ℤ)) (qty : ℤ),
      (execSell sym ts buy pm qty).posDelta
          = -(((execSell sym ts buy pm qty).trades.map (fun t => t.quantity)).sum)
      ∧ (execSell sym ts buy pm qty).cashDelta
          = (((execSell sym ts buy pm qty).trades.map
              (fun t => t.price * t.quantity)).sum)
      ∧ (execSell sym ts buy pm qty).qty
          = qty - (execSell sym ts buy pm qty).posDelta := by
  induction pm with
  | nil =>
    intro buy qty
    simp [execSell]
  | cons p rest ih =>
    intro buy qty
    simp only [execSell]
    by_cases h : qty + min |qty| (lookup0 buy p) = 0
    · rw [if_pos h]
      refine ⟨by simp, by simp, by simp; try omega⟩
    · rw [if_neg h]
      obtain ⟨h1, h2, h3⟩ := ih
        (if lookup0 buy p - min |qty| (lookup0 buy p) = 0 then eraseK buy p
         else setK buy p (lookup0 buy p - min |qty| (lookup0 buy p)))
        (qty + min |qty| (lookup0 buy p))
      refine ⟨?_, ?_, ?_⟩
      · simp [h1]
        try ring
      · simp [h2]
        try ring
      · simp [h3]
        try omega

theorem execSell_trades_prices (sym : String) (ts : ℤ) (pm : List ℤ) :
    ∀ (buy : List (ℤ × ℤ)) (qty : ℤ),
      (execSell sym ts buy pm qty).trades.map (fun t => t.price)
          = pm.take (execSell sym ts buy pm qty).trades.length
      ∧ ((execSell sym ts buy pm qty).qty ≠ 0 →
          (execSell sym ts buy pm qty).trades.map (fun t => t.price) = pm) := by
  induction pm with
  | nil =>
    intro buy qty
    simp [execSell]
  | cons p rest ih =>
    intro buy qty
    simp only [execSell]
    by_cases h : qty + min |qty| (lookup0 buy p) = 0
    · rw [if_pos h]
      refine ⟨by simp, ?_⟩
      intro hq
      exact absurd h (by simpa using hq)
    · rw [if_neg h]
      obtain ⟨h1, h2⟩ := ih
        (if lookup0 buy p - min |qty| (lookup0 buy p) = 0 then eraseK buy p
         else setK buy p (lookup0 buy p - min |qty| (lookup0 buy p)))
        (qty + min |qty| (lookup0 buy p))
      refine ⟨by simp [h1], ?_⟩
      intro hq
      simp only [List.map_cons]
      rw [h2 (by simpa using hq)]

theorem execSell_fields (sym : String) (ts : ℤ) (pm : List ℤ) :
    ∀ (buy : List (ℤ × ℤ)) (qty : ℤ), qty ≤ 0 →
      (∀ pv ∈ buy, 0 ≤ pv.2) →
      (execSell sym ts buy pm qty).qty ≤ 0
      ∧ (∀ pv ∈ (execSell sym ts buy pm qty).book, 0 ≤ pv.2)
      ∧ ∀ t ∈ (execSell sym ts buy pm qty).trades,
          t.symbol = sym ∧ t.buyer = "" ∧ t.seller = "SUBMISSION"
          ∧ t.timestamp = ts ∧ 0 ≤ t.quantity := by
  induction pm with
  | nil =>
    intro buy qty hq hb
    exact ⟨hq, hb, by simp [execSell]⟩
  | cons p rest ih =>
    intro buy qty hq hb
    have hbv : 0 ≤ lookup0 buy p := lookup0_nonneg buy p hb
    have hv : 0 ≤ min |qty| (lookup0 buy p) := le_min (abs_nonneg _) hbv
    have hvq : min |qty| (lookup0 buy p) ≤ -qty := by
      have := min_le_left |qty| (lookup0 buy p)
      have habs : |qty| = -qty := abs_of_nonpos hq
      omega
    have hb1 : ∀ pv ∈
        (if lookup0 buy p - min |qty| (lookup0 buy p) = 0 then eraseK buy p
         else setK buy p (lookup0 buy p - min |qty| (lookup0 buy p))), 0 ≤ pv.2 := by
      split_ifs with hz
      · intro pv hpv
        exact hb pv (eraseK_subset buy p pv hpv)
      · apply setK_forall_values buy p _ hb
        have := min_le_right |qty| (lookup0 buy p)
        omega
    simp only [execSell]
    by_cases h : qty + min |qty| (lookup0 buy p) = 0
    · rw [if_pos h]
      refine ⟨by simp [h], by simpa using hb1, ?_⟩
      intro t ht
      simp only [List.mem_singleton] at ht
      subst ht
      exact ⟨rfl, rfl, rfl, rfl, hv⟩
    · rw [if_neg h]
      have hq1 : qty + min |qty| (lookup0 buy p) ≤ 0 := by omega
      obtain ⟨ih1, ih2, ih3⟩ := ih
        (if lookup0 buy p - min |qty| (lookup0 buy p) = 0 then eraseK buy p
         else setK buy p (lookup0 buy p - min |qty| (lookup0 buy p)))
        (qty + min |qty| (lookup0 buy p)) hq1 hb1
      refine ⟨by simpa using ih1, by simpa using ih2, ?_⟩
      intro t ht
      simp only [List.mem_cons] at ht
      rcases ht with ht | ht
      · subst ht
        exact ⟨rfl, rfl, rfl, rfl, hv⟩
      · exact ih3 t ht

theorem stepBook_facts (l : List (ℤ × ℤ)) (p u : ℤ)
    (hnd : (keysOf l).Nodup) (hp : p ∈ keysOf l) :
    lookup0 (if u = 0 then eraseK l p else setK l p u) p = u
    ∧ (∀ x, p ≠ x →
        lookup0 (if u = 0 then eraseK l p else setK l p u) x = lookup0 l x)
    ∧ (p ∈ keysOf (if u = 0 then eraseK l p else setK l p u) ↔ u ≠ 0)
    ∧ (∀ x, p ≠ x →
        (x ∈ keysOf (if u = 0 then eraseK l p else setK l p u) ↔ x ∈ keysOf l))
    ∧ (keysOf (if u = 0 then eraseK l p else setK l p u)).Nodup := by
  split_ifs with hz
  · subst hz
    refine ⟨?_, ?_, ?_, ?_, ?_⟩
    · exact lookup0_eraseK_self l p hnd
    · intro x hx
      exact lookup0_eraseK_ne l p x hx
    · simp only [mem_keysOf_eraseK l p p hnd]
      simp
    · intro x hx
      rw [mem_keysOf_eraseK l p x hnd]
      have hxp : x ≠ p := fun hc => hx hc.symm
      simp [hxp]
    · exact keysOf_eraseK_nodup l p hnd
  · refine ⟨?_, ?_, ?_, ?_, ?_⟩
    · exact lookup0_setK_self l p u
    · intro x hx
      exact lookup0_setK_ne l p u x hx
    · rw [keysOf_setK_mem l p u hp]
      simp [hp, hz]
    · intro x hx
      rw [keysOf_setK_mem l p u hp]
    · exact keysOf_setK_nodup l p u hnd

theorem fillAt_nil (x : ℤ) : fillAt [] x = 0 := rfl

theorem fillAt_cons (t : Trade) (trades : List Trade) (x : ℤ) :
    fillAt (t :: trades) x
      = (if t.price = x then t.quantity else 0) + fillAt trades x := by
  by_cases h : t.price = x
  · simp [fillAt, List.filter_cons, h]
  · simp [fillAt, List.filter_cons, h]

theorem fillAt_eq_zero (trades : List Trade) (x : ℤ)
    (h : x ∉ trades.map (fun t => t.price)) : fillAt trades x = 0 := by
  induction trades with
  | nil => rfl
  | cons t rest ih =>
    simp only [List.map_cons, List.mem_cons, not_or] at h
    rw [fillAt_cons, if_neg (fun hc => h.1 hc.symm), ih h.2]
    ring

theorem execBuy_min (sym : String) (ts : ℤ) (pm : List ℤ) :
    ∀ (sell : List (ℤ × ℤ)) (qty : ℤ), pm.Nodup → 0 ≤ qty →
      (execBuy sym ts sell pm qty).posDelta
        = min qty ((pm.map (fun x => |lookup0 sell x|)).sum) := by
  induction pm with
  | nil =>
    intro sell qty _ hq
    simp only [execBuy, List.map_nil, List.sum_nil]
    omega
  | cons p rest ih =>
    intro sell qty hnd hq
    have hS : 0 ≤ ((rest.map (fun x => |lookup0 sell x|)).sum) := by
      apply List.sum_nonneg
      intro a ha
      simp only [List.mem_map] at ha
      obtain ⟨x, _, rfl⟩ := ha
      exact abs_nonneg _
    simp only [execBuy, List.map_cons, List.sum_cons]
    by_cases h : qty - min qty |lookup0 sell p| = 0
    · rw [if_pos h]
      simp only []
      omega
    · rw [if_neg h]
      have hrest : rest.map (fun x =>
          |lookup0 (if lookup0 sell p + min qty |lookup0 sell p| = 0
            then eraseK sell p
            else setK sell p (lookup0 sell p + min qty |lookup0 sell p|)) x|)
          = rest.map (fun x => |lookup0 sell x|) := by
        apply List.map_congr_left
        intro x hx
        have hpx : p ≠ x := fun hc => (List.nodup_cons.1 hnd).1 (hc ▸ hx)
        by_cases hz : lookup0 sell p + min qty |lookup0 sell p| = 0
        · rw [if_pos hz, lookup0_eraseK_ne sell p x hpx]
        · rw [if_neg hz, lookup0_setK_ne sell p _ x hpx]
      have hq1 : 0 ≤ qty - min qty |lookup0 sell p| := by
        have := min_le_left qty |lookup0 sell p|
        omega
      have ihh := ih
        (if lookup0 sell p + min qty |lookup0 sell p| = 0 then eraseK sell p
         else setK sell p (lookup0 sell p + min qty |lookup0 sell p|))
        (qty - min qty |lookup0 sell p|) (List.nodup_cons.1 hnd).2 hq1
      rw [hrest] at ihh
      simp only [ihh]
      omega

theorem execSell_min (sym : String) (ts : ℤ) (pm : List ℤ) :
    ∀ (buy : List (ℤ × ℤ)) (qty : ℤ), pm.Nodup → qty ≤ 0 →
      (∀ pv ∈ buy, 0 ≤ pv.2) →
      (execSell sym ts buy pm qty).posDelta
        = -(min |qty| ((pm.map (fun x => lookup0 buy x)).sum)) := by
  induction pm with
  | nil =>
    intro buy qty _ hq _
    have habs : |qty| = -qty := abs_of_nonpos hq
    simp only [execSell, List.map_nil, List.sum_nil]
    omega
  | cons p rest ih =>
    intro buy qty hnd hq hb
    have habs : |qty| = -qty := abs_of_nonpos hq
    have hbv : 0 ≤ lookup0 buy p := lookup0_nonneg buy p hb
    have hS : 0 ≤ ((rest.map (fun x => lookup0 buy x)).sum) := by
      apply List.sum_nonneg
      intro a ha
      simp only [List.mem_map] at ha
      obtain ⟨x, _, rfl⟩ := ha
      exact lookup0_nonneg buy x hb
    simp only [execSell, List.map_cons, List.sum_cons]
    by_cases h : qty + min |qty| (lookup0 buy p) = 0
    · rw [if_pos h]
      simp only []
      omega
    · rw [if_neg h]
      have hrest : rest.map (fun x =>
          lookup0 (if lookup0 buy p - min |qty| (lookup0 buy p) = 0
            then eraseK buy p
            else setK buy p (lookup0 buy p - min |qty| (lookup0 buy p))) x)
          = rest.map (fun x => lookup0 buy x) := by
        apply List.map_congr_left
        intro x hx
        have hpx : p ≠ x := fun hc => (List.nodup_cons.1 hnd).1 (hc ▸ hx)
        by_cases hz : lookup0 buy p - min |qty| (lookup0 buy p) = 0
        · rw [if_pos hz, lookup0_eraseK_ne buy p x hpx]
        · rw [if_neg hz, lookup0_setK_ne buy p _ x hpx]
      have hb1 : ∀ pv ∈
          (if lookup0 buy p - min |qty| (lookup0 buy p) = 0 then eraseK buy p
           else setK buy p (lookup0 buy p - min |qty| (lookup0 buy p))), 0 ≤ pv.2 := by
        split_ifs with hz
        · intro pv hpv
          exact hb pv (eraseK_subset buy p pv hpv)
        · apply setK_forall_values buy p _ hb
          have := min_le_right |qty| (lookup0 buy p)
          omega
      have hq1 : qty + min |qty| (lookup0 buy p) ≤ 0 := by omega
      have habs1 : |qty + min |qty| (lookup0 buy p)|
          = -(qty + min |qty| (lookup0 buy p)) := abs_of_nonpos hq1
      have ihh := ih
        (if lookup0 buy p - min |qty| (lookup0 buy p) = 0 then eraseK buy p
         else setK buy p (lookup0 buy p - min |qty| (lookup0 buy p)))
        (qty + min |qty| (lookup0 buy p)) (List.nodup_cons.1 hnd).2 hq1 hb1
      rw [hrest] at ihh
      simp only [ihh]
      omega

theorem execBuy_book (sym : String) (ts : ℤ) (pm : List ℤ) :
    ∀ (sell : List (ℤ × ℤ)) (qty : ℤ),
      (keysOf sell).Nodup → pm.Nodup → (∀ x ∈ pm, x ∈ keysOf sell) →
      (∀ x : ℤ, lookup0 (execBuy sym ts sell pm qty).book x
          = lookup0 sell x + fillAt (execBuy sym ts sell pm qty).trades x)
      ∧ (∀ x ∈ (execBuy sym ts sell pm qty).trades.map (fun t => t.price),
          (x ∈ keysOf (execBuy sym ts sell pm qty).book
            ↔ lookup0 sell x + fillAt (execBuy sym ts sell pm qty).trades x ≠ 0))
      ∧ (∀ x : ℤ, x ∉ (execBuy sym ts sell pm qty).trades.map (fun t => t.price) →
          (x ∈ keysOf (execBuy sym ts sell pm qty).book ↔ x ∈ keysOf sell))
      ∧ (keysOf (execBuy sym ts sell pm qty).book).Nodup := by
  induction pm with
  | nil =>
    intro sell qty hnd _ _
    refine ⟨?_, ?_, ?_, ?_⟩
    · intro x
      simp [execBuy, fillAt_nil]
    · intro x hx
      simp [execBuy] at hx
    · intro x _
      simp [execBuy]
    · simpa [execBuy] using hnd
  | cons p rest ih =>
    intro sell qty hnd hpm hsub
    have hp : p ∈ keysOf sell := hsub p (List.mem_cons_self _ _)
    obtain ⟨hpr, hpmt⟩ := List.nodup_cons.1 hpm
    simp only [execBuy]
    set lv := lookup0 sell p with hlv
    set v := min qty |lv| with hv
    set B1 := (if lv + v = 0 then eraseK sell p else setK sell p (lv + v)) with hB1
    obtain ⟨s1, s2, s3, s4, s5⟩ := stepBook_facts sell p (lv + v) hnd hp
    rw [← hB1] at s1 s2 s3 s4 s5
    by_cases h : qty - v = 0
    · rw [if_pos h]
      refine ⟨?_, ?_, ?_, ?_⟩
      · intro x
        dsimp only
        rw [fillAt_cons, fillAt_nil]
        dsimp only
        by_cases hx : p = x
        · subst hx
          rw [s1, if_pos rfl]
          ring
        · rw [s2 x hx, if_neg hx]
          ring
      · intro x hx
        dsimp only at hx
        simp only [List.map_cons, List.map_nil, List.mem_singleton] at hx
        subst hx
        dsimp only
        rw [fillAt_cons, fillAt_nil]
        dsimp only
        rw [if_pos rfl, add_zero]
        exact s3
      · intro x hx
        dsimp only at hx
        simp only [List.map_cons, List.map_nil, List.mem_singleton] at hx
        exact s4 x (fun hc => hx hc.symm)
      · exact s5
    · rw [if_neg h]
      set R := execBuy sym ts B1 rest (qty - v) with hR
      have hsub1 : ∀ x ∈ rest, x ∈ keysOf B1 := by
        intro x hx
        have hpx : p ≠ x := fun hc => hpr (hc ▸ hx)
        rw [s4 x hpx]
        exact hsub x (List.mem_cons_of_mem _ hx)
      obtain ⟨i1, i2, i3, i4⟩ := ih B1 (qty - v) s5 hpmt hsub1
      rw [← hR] at i1 i2 i3 i4
      have hpr2 : ∀ x ∈ R.trades.map (fun t => t.price), x ∈ rest := by
        intro x hx
        have htp := (execBuy_trades_prices sym ts rest B1 (qty - v)).1
        rw [← hR] at htp
        rw [htp] at hx
        exact List.take_subset _ _ hx
      have hpnotr : p ∉ R.trades.map (fun t => t.price) :=
        fun hc => hpr (hpr2 p hc)
      refine ⟨?_, ?_, ?_, ?_⟩
      · intro x
        dsimp only
        rw [fillAt_cons]
        dsimp only
        by_cases hx : p = x
        · subst hx
          rw [i1 p, fillAt_eq_zero _ p hpnotr, s1, if_pos rfl]
          ring
        · rw [i1 x, s2 x hx, if_neg hx]
          ring
      · intro x hx
        dsimp only at hx
        simp only [List.map_cons, List.mem_cons] at hx
        dsimp only
        rw [fillAt_cons]
        dsimp only
        rcases hx with hx | hx
        · rw [hx, if_pos rfl, fillAt_eq_zero _ p hpnotr, add_zero]
          rw [i3 p hpnotr]
          exact s3
        · have hxr : x ∈ rest := hpr2 x hx
          have hpx : p ≠ x := fun hc => hpr (hc ▸ hxr)
          rw [if_neg hpx, i2 x hx, s2 x hpx, zero_add]
      · intro x hx
        dsimp only at hx
        simp only [List.map_cons, List.mem_cons, not_or] at hx
        obtain ⟨hx1, hx2⟩ := hx
        have hpx : p ≠ x := fun hc => hx1 hc.symm
        dsimp only
        rw [i3 x hx2, s4 x hpx]
      · exact i4

theorem execSell_book (sym : String) (ts : ℤ) (pm : List ℤ) :
    ∀ (buy : List (ℤ × ℤ)) (qty : ℤ),
      (keysOf buy).Nodup → pm.Nodup → (∀ x ∈ pm, x ∈ keysOf buy) →
      (∀ x : ℤ, lookup0 (execSell sym ts buy pm qty).book x
          = lookup0 buy x - fillAt (execSell sym ts buy pm qty).trades x)
      ∧ (∀ x ∈ (execSell sym ts buy pm qty).trades.map (fun t => t.price),
          (x ∈ keysOf (execSell sym ts buy pm qty).book
            ↔ lookup0 buy x - fillAt (execSell sym ts buy pm qty).trades x ≠ 0))
      ∧ (∀ x : ℤ, x ∉ (execSell sym ts buy pm qty).trades.map (fun t => t.price) →
          (x ∈ keysOf (execSell sym ts buy pm qty).book ↔ x ∈ keysOf buy))
      ∧ (keysOf (execSell sym ts buy pm qty).book).Nodup := by
  induction pm with
  | nil =>
    intro buy qty hnd _ _
    refine ⟨?_, ?_, ?_, ?_⟩
    · intro x
      simp [execSell, fillAt_nil]
    · intro x hx
      simp [execSell] at hx
    · intro x _
      simp [execSell]
    · simpa [execSell] using hnd
  | cons p rest ih =>
    intro buy qty hnd hpm hsub
    have hp : p ∈ keysOf buy := hsub p (List.mem_cons_self _ _)
    obtain ⟨hpr, hpmt⟩ := List.nodup_cons.1 hpm
    simp only [execSell]
    set lv := lookup0 buy p with hlv
    set v := min |qty| lv with hv
    set B1 := (if lv - v = 0 then eraseK buy p else setK buy p (lv - v)) with hB1
    obtain ⟨s1, s2, s3, s4, s5⟩ := stepBook_facts buy p (lv - v) hnd hp
    rw [← hB1] at s1 s2 s3 s4 s5
    by_cases h : qty + v = 0
    · rw [if_pos h]
      refine ⟨?_, ?_, ?_, ?_⟩
      · intro x
        dsimp only
        rw [fillAt_cons, fillAt_nil]
        dsimp only
        by_cases hx : p = x
        · subst hx
          rw [s1, if_pos rfl]
          ring
        · rw [s2 x hx, if_neg hx]
          ring
      · intro x hx
        dsimp only at hx
        simp only [List.map_cons, List.map_nil, List.mem_singleton] at hx
        subst hx
        dsimp only
        rw [fillAt_cons, fillAt_nil]
        dsimp only
        rw [if_pos rfl, add_zero]
        exact s3
      · intro x hx
        dsimp only at hx
        simp only [List.map_cons, List.map_nil, List.mem_singleton] at hx
        exact s4 x (fun hc => hx hc.symm)
      · exact s5
    · rw [if_neg h]
      set R := execSell sym ts B1 rest (qty + v) with hR
      have hsub1 : ∀ x ∈ rest, x ∈ keysOf B1 := by
        intro x hx
        have hpx : p ≠ x := fun hc => hpr (hc ▸ hx)
        rw [s4 x hpx]
        exact hsub x (List.mem_cons_of_mem _ hx)
      obtain ⟨i1, i2, i3, i4⟩ := ih B1 (qty + v) s5 hpmt hsub1
      rw [← hR] at i1 i2 i3 i4
      have hpr2 : ∀ x ∈ R.trades.map (fun t => t.price), x ∈ rest := by
        intro x hx
        have htp := (execSell_trades_prices sym ts rest B1 (qty + v)).1
        rw [← hR] at htp
        rw [htp] at hx
        exact List.take_subset _ _ hx
      have hpnotr : p ∉ R.trades.map (fun t => t.price) :=
        fun hc => hpr (hpr2 p hc)
      refine ⟨?_, ?_, ?_, ?_⟩
      · intro x
        dsimp only
        rw [fillAt_cons]
        dsimp only
        by_cases hx : p = x
        · subst hx
          rw [i1 p, fillAt_eq_zero _ p hpnotr, s1, if_pos rfl]
          ring
        · rw [i1 x, s2 x hx, if_neg hx]
          ring
      · intro x hx
        dsimp only at hx
        simp only [List.map_cons, List.mem_cons] at hx
        dsimp only
        rw [fillAt_cons]
        dsimp only
        rcases hx with hx | hx
        · rw [hx, if_pos rfl, fillAt_eq_zero _ p hpnotr, add_zero]
          rw [i3 p hpnotr]
          exact s3
        · have hxr : x ∈ rest := hpr2 x hx
          have hpx : p ≠ x := fun hc => hpr (hc ▸ hxr)
          rw [if_neg hpx, i2 x hx, s2 x hpx, zero_add]
      · intro x hx
        dsimp only at hx
        simp only [List.map_cons, List.mem_cons, not_or] at hx
        obtain ⟨hx1, hx2⟩ := hx
        have hpx : p ≠ x := fun hc => hx1 hc.symm
        dsimp only
        rw [i3 x hx2, s4 x hpx]
      · exact i4

theorem buyMatches_sorted (sell : List (ℤ × ℤ)) (limit : ℤ) :
    List.Sorted (· ≤ ·) (buyMatches sell limit) :=
  List.sorted_insertionSort _ _

theorem sellMatches_sorted (buy : List (ℤ × ℤ)) (limit : ℤ) :
    List.Sorted (· ≥ ·) (sellMatches buy limit) :=
  List.sorted_insertionSort _ _

theorem buyMatches_mem (sell : List (ℤ × ℤ)) (limit x : ℤ) :
    x ∈ buyMatches sell limit ↔ x ∈ keysOf sell ∧ x ≤ limit := by
  unfold buyMatches
  rw [List.mem_insertionSort, List.mem_filter]
  simp

theorem sellMatches_mem (buy : List (ℤ × ℤ)) (limit x : ℤ) :
    x ∈ sellMatches buy limit ↔ x ∈ keysOf buy ∧ limit ≤ x := by
  unfold sellMatches
  rw [List.mem_insertionSort, List.mem_filter]
  simp

theorem buyMatches_nodup (sell : List (ℤ × ℤ)) (limit : ℤ)
    (hnd : (keysOf sell).Nodup) : (buyMatches sell limit).Nodup :=
  ((List.perm_insertionSort _ _).nodup_iff).2 (hnd.filter _)

theorem sellMatches_nodup (buy : List (ℤ × ℤ)) (limit : ℤ)
    (hnd : (keysOf buy).Nodup) : (sellMatches buy limit).Nodup :=
  ((List.perm_insertionSort _ _).nodup_iff).2 (hnd.filter _)

theorem buyMatches_empty (sell : List (ℤ × ℤ)) (limit : ℤ)
    (h : ∀ x ∈ keysOf sell, limit < x) : buyMatches sell limit = [] := by
  unfold buyMatches
  have : (keysOf sell).filter (fun p => decide (p ≤ limit)) = [] := by
    rw [List.filter_eq_nil_iff]
    intro a ha
    simpa using not_le.2 (h a ha)
  rw [this]
  rfl

theorem sellMatches_empty (buy : List (ℤ × ℤ)) (limit : ℤ)
    (h : ∀ x ∈ keysOf buy, x < limit) : sellMatches buy limit = [] := by
  unfold sellMatches
  have : (keysOf buy).filter (fun p => decide (limit ≤ p)) = [] := by
    rw [List.filter_eq_nil_iff]
    intro a ha
    simpa using not_le.2 (h a ha)
  rw [this]
  rfl

/-- C3: matching an accepted buy order visits only ask levels priced at
most the limit price, in ascending price order; every fill has
nonnegative volume, position rises by the total filled volume and cash
falls by the sum of price times fill volume; the total filled volume is
the minimum of the order quantity and the resting matchable volume; the
book changes pointwise by exactly the fills, a visited level being
removed exactly when its volume reaches zero and unvisited levels left
untouched (so an unfilled remainder never rests in the book); matching
visits every matchable level unless the quantity is exhausted first; and
a buy order whose limit is strictly below the best ask yields zero fills
and leaves book, quantity, position and cash unchanged. -/
theorem buy_matching_spec (sym : String) (ts limit qty : ℤ)
    (sell : List (ℤ × ℤ)) (hq : 0 < qty) (hnd : (keysOf sell).Nodup) :
    List.Sorted (· ≤ ·)
      ((matchBuyOrder sell limit qty sym ts).trades.map (fun t => t.price))
    ∧ (∀ t ∈ (matchBuyOrder sell limit qty sym ts).trades,
        t.price ≤ limit ∧ t.price ∈ keysOf sell ∧ t.symbol = sym
        ∧ t.buyer = "SUBMISSION" ∧ t.seller = "" ∧ t.timestamp = ts
        ∧ 0 ≤ t.quantity)
    ∧ (matchBuyOrder sell limit qty sym ts).posDelta
        = (((matchBuyOrder sell limit qty sym ts).trades.map
            (fun t => t.quantity)).sum)
    ∧ (matchBuyOrder sell limit qty sym ts).cashDelta
        = -(((matchBuyOrder sell limit qty sym ts).trades.map
            (fun t => t.price * t.quantity)).sum)
    ∧ (matchBuyOrder sell limit qty sym ts).qty
        = qty - (matchBuyOrder sell limit qty sym ts).posDelta
    ∧ 0 ≤ (matchBuyOrder sell limit qty sym ts).qty
    ∧ (matchBuyOrder sell limit qty sym ts).posDelta
        = min qty (((buyMatches sell limit).map (fun x => |lookup0 sell x|)).sum)
    ∧ (∀ x : ℤ, lookup0 (matchBuyOrder sell limit qty sym ts).book x
        = lookup0 sell x + fillAt (matchBuyOrder sell limit qty sym ts).trades x)
    ∧ (∀ x ∈ (matchBuyOrder sell limit qty sym ts).trades.map (fun t => t.price),
        (x ∈ keysOf (matchBuyOrder sell limit qty sym ts).book
          ↔ lookup0 sell x
              + fillAt (matchBuyOrder sell limit qty sym ts).trades x ≠ 0))
    ∧ (∀ x : ℤ,
        x ∉ (matchBuyOrder sell limit qty sym ts).trades.map (fun t => t.price) →
        (x ∈ keysOf (matchBuyOrder sell limit qty sym ts).book ↔ x ∈ keysOf sell))
    ∧ ((matchBuyOrder sell limit qty sym ts).qty ≠ 0 →
        (matchBuyOrder sell limit qty sym ts).trades.map (fun t => t.price)
          = buyMatches sell limit)
    ∧ ((∀ x ∈ keysOf sell, limit < x) →
        matchBuyOrder sell limit qty sym ts = ⟨sell, qty, [], 0, 0⟩) := by
  have hpmnd := buyMatches_nodup sell limit hnd
  have hpmsub : ∀ x ∈ buyMatches sell limit, x ∈ keysOf sell :=
    fun x hx => ((buyMatches_mem sell limit x).1 hx).1
  obtain ⟨ht1, ht2⟩ := execBuy_trades_prices sym ts (buyMatches sell limit) sell qty
  obtain ⟨hq1, hfields⟩ := execBuy_fields sym ts (buyMatches sell limit) sell qty hq.le
  obtain ⟨hp1, hp2, hp3⟩ := execBuy_totals sym ts (buyMatches sell limit) sell qty
  have hmin := execBuy_min sym ts (buyMatches sell limit) sell qty hpmnd hq.le
  obtain ⟨hb1, hb2, hb3, hb4⟩ :=
    execBuy_book sym ts (buyMatches sell limit) sell qty hnd hpmnd hpmsub
  refine ⟨?_, ?_, hp1, hp2, hp3, hq1, hmin, hb1, hb2, hb3, ht2, ?_⟩
  · show List.Sorted (· ≤ ·)
      ((execBuy sym ts sell (buyMatches sell limit) qty).trades.map
        (fun t => t.price))
    rw [ht1]
    exact List.Pairwise.sublist (List.take_sublist _ _) (buyMatches_sorted sell limit)
  · intro t ht
    obtain ⟨f1, f2, f3, f4, f5⟩ := hfields t ht
    have hpmem : t.price ∈ buyMatches sell limit := by
      have h0 : t.price ∈ (matchBuyOrder sell limit qty sym ts).trades.map
          (fun t => t.price) := List.mem_map_of_mem _ ht
      rw [show ((matchBuyOrder sell limit qty sym ts).trades.map (fun t => t.price))
        = (buyMatches sell limit).take
            (matchBuyOrder sell limit qty sym ts).trades.length from ht1] at h0
      exact List.take_subset _ _ h0
    obtain ⟨hk, hl⟩ := (buyMatches_mem sell limit t.price).1 hpmem
    exact ⟨hl, hk, f1, f2, f3, f4, f5⟩
  · intro hbelow
    show execBuy sym ts sell (buyMatches sell limit) qty = ⟨sell, qty, [], 0, 0⟩
    rw [buyMatches_empty sell limit hbelow]
    rfl

/-- C4: matching an accepted sell order visits only bid levels priced at
least the limit price, in descending price order with the best bid
first; every fill has nonnegative volume, position falls by the total
filled volume and cash rises by the sum of price times fill volume; the
total filled volume is the minimum of the requested magnitude and the
resting matchable volume; the book changes pointwise by exactly the
fills, with unvisited levels untouched; and no matchable level is
skipped while order quantity remains. -/
theorem sell_matching_spec (sym : String) (ts limit qty : ℤ)
    (buy : List (ℤ × ℤ)) (hq : qty < 0) (hnd : (keysOf buy).Nodup)
    (hb : ∀ pv ∈ buy, 0 ≤ pv.2) :
    List.Sorted (· ≥ ·)
      ((matchSellOrder buy limit qty sym ts).trades.map (fun t => t.price))
    ∧ (∀ t ∈ (matchSellOrder buy limit qty sym ts).trades,
        limit ≤ t.price ∧ t.price ∈ keysOf buy ∧ t.symbol = sym
        ∧ t.buyer = "" ∧ t.seller = "SUBMISSION" ∧ t.timestamp = ts
        ∧ 0 ≤ t.quantity)
    ∧ (matchSellOrder buy limit qty sym ts).posDelta
        = -(((matchSellOrder buy limit qty sym ts).trades.map
            (fun t => t.quantity)).sum)
    ∧ (matchSellOrder buy limit qty sym ts).cashDelta
        = (((matchSellOrder buy limit qty sym ts).trades.map
            (fun t => t.price * t.quantity)).sum)
    ∧ (matchSellOrder buy limit qty sym ts).qty
        = qty - (matchSellOrder buy limit qty sym ts).posDelta
    ∧ (matchSellOrder buy limit qty sym ts).qty ≤ 0
    ∧ (matchSellOrder buy limit qty sym ts).posDelta
        = -(min |qty| (((sellMatches buy limit).map (fun x => lookup0 buy x)).sum))
    ∧ (∀ x : ℤ, lookup0 (matchSellOrder buy limit qty sym ts).book x
        = lookup0 buy x - fillAt (matchSellOrder buy limit qty sym ts).trades x)
    ∧ (∀ x ∈ (matchSellOrder buy limit qty sym ts).trades.map (fun t => t.price),
        (x ∈ keysOf (matchSellOrder buy limit qty sym ts).book
          ↔ lookup0 buy x
              - fillAt (matchSellOrder buy limit qty sym ts).trades x ≠ 0))
    ∧ (∀ x : ℤ,
        x ∉ (matchSellOrder buy limit qty sym ts).trades.map (fun t => t.price) →
        (x ∈ keysOf (matchSellOrder buy limit qty sym ts).book ↔ x ∈ keysOf buy))
    ∧ ((matchSellOrder buy limit qty sym ts).qty ≠ 0 →
        (matchSellOrder buy limit qty sym ts).trades.map (fun t => t.price)
          = sellMatches buy limit)
    ∧ ((∀ x ∈ keysOf buy, x < limit) →
        matchSellOrder buy limit qty sym ts = ⟨buy, qty, [], 0, 0⟩) := by
  have hpmnd := sellMatches_nodup buy limit hnd
  have hpmsub : ∀ x ∈ sellMatches buy limit, x ∈ keysOf buy :=
    fun x hx => ((sellMatches_mem buy limit x).1 hx).1
  obtain ⟨ht1, ht2⟩ := execSell_trades_prices sym ts (sellMatches buy limit) buy qty
  obtain ⟨hq1, hbook1, hfields⟩ :=
    execSell_fields sym ts (sellMatches buy limit) buy qty hq.le hb
  obtain ⟨hp1, hp2, hp3⟩ := execSell_totals sym ts (sellMatches buy limit) buy qty
  have hmin := execSell_min sym ts (sellMatches buy limit) buy qty hpmnd hq.le hb
  obtain ⟨hb1, hb2, hb3, hb4⟩ :=
    execSell_book sym ts (sellMatches buy limit) buy qty hnd hpmnd hpmsub
  refine ⟨?_, ?_, hp1, hp2, hp3, hq1, hmin, hb1, hb2, hb3, ht2, ?_⟩
  · show List.Sorted (· ≥ ·)
      ((execSell sym ts buy (sellMatches buy limit) qty).trades.map
        (fun t => t.price))
    rw [ht1]
    exact List.Pairwise.sublist (List.take_sublist _ _) (sellMatches_sorted buy limit)
  · intro t ht
    obtain ⟨f1, f2, f3, f4, f5⟩ := hfields t ht
    have hpmem : t.price ∈ sellMatches buy limit := by
      have h0 : t.price ∈ (matchSellOrder buy limit qty sym ts).trades.map
          (fun t => t.price) := List.mem_map_of_mem _ ht
      rw [show ((matchSellOrder buy limit qty sym ts).trades.map (fun t => t.price))
        = (sellMatches buy limit).take
            (matchSellOrder buy limit qty sym ts).trades.length from ht1] at h0
      exact List.take_subset _ _ h0
    obtain ⟨hk, hl⟩ := (sellMatches_mem buy limit t.price).1 hpmem
    exact ⟨hl, hk, f1, f2, f3, f4, f5⟩
  · intro hbelow
    show execSell sym ts buy (sellMatches buy limit) qty = ⟨buy, qty, [], 0, 0⟩
    rw [sellMatches_empty buy limit hbelow]
    rfl

theorem upd_self {α : Type} (f : String → α) (k : String) (v : α) :
    upd f k v k = v := by
  simp [upd]

theorem upd_ne {α : Type} (f : String → α) (k : String) (v : α) (x : String)
    (h : x ≠ k) : upd f k v x = f x := by
  simp [upd, h]

theorem total_long_cons (o : Order) (os : List Order) :
    total_long (o :: os) = (if 0 < o.quantity then o.quantity else 0) + total_long os := by
  unfold total_long
  by_cases h : 0 < o.quantity
  · simp [List.filter_cons, h]
  · simp [List.filter_cons, h]

theorem total_short_cons (o : Order) (os : List Order) :
    total_short (o :: os)
      = (if o.quantity < 0 then -o.quantity else 0) + total_short os := by
  unfold total_short
  by_cases h : o.quantity < 0
  · simp [List.filter_cons, h, abs_of_neg h]
  · simp [List.filter_cons, h]

theorem total_long_nonneg (os : List Order) : 0 ≤ total_long os := by
  induction os with
  | nil => simp [total_long]
  | cons o os ih =>
    rw [total_long_cons]
    by_cases h : 0 < o.quantity
    · rw [if_pos h]; omega
    · rw [if_neg h]; omega

theorem total_short_nonneg (os : List Order) : 0 ≤ total_short os := by
  induction os with
  | nil => simp [total_short]
  | cons o os ih =>
    rw [total_short_cons]
    by_cases h : o.quantity < 0
    · rw [if_pos h]; omega
    · rw [if_neg h]; omega

theorem take_sum_bounds (xs : List ℤ) :
    ∀ (k : ℕ), (∀ x ∈ xs, 0 ≤ x) →
      0 ≤ ((xs.take k).sum) ∧ ((xs.take k).sum) ≤ xs.sum := by
  induction xs with
  | nil =>
    intro k _
    simp
  | cons x xs ih =>
    intro k hx
    have hx0 : 0 ≤ x := hx x (List.mem_cons_self _ _)
    have hxs : ∀ y ∈ xs, 0 ≤ y := fun y hy => hx y (List.mem_cons_of_mem _ hy)
    have hsum : 0 ≤ xs.sum := List.sum_nonneg hxs
    cases k with
    | zero =>
      refine ⟨le_refl _, ?_⟩
      simp only [List.take_zero, List.sum_nil, List.sum_cons]
      omega
    | succ k =>
      obtain ⟨h1, h2⟩ := ih k hxs
      simp only [List.take_succ_cons, List.sum_cons]
      constructor <;> omega

theorem signedVolume_buy (T : List Trade)
    (h : ∀ t ∈ T, t.buyer = "SUBMISSION") :
    T.map signedVolume = T.map (fun t => t.quantity) := by
  apply List.map_congr_left
  intro t ht
  simp [signedVolume, h t ht]

theorem signedVolume_sell (T : List Trade)
    (h : ∀ t ∈ T, t.buyer = "") :
    T.map signedVolume = T.map (fun t => -t.quantity) := by
  apply List.map_congr_left
  intro t ht
  have : t.buyer ≠ "SUBMISSION" := by
    rw [h t ht]
    decide
  simp [signedVolume, this]

theorem execOrder_other (ts : ℤ) (st : ExecSt) (o : Order) (p : String)
    (h : o.symbol ≠ p) :
    (execOrder ts st o).depths p = st.depths p
    ∧ (execOrder ts st o).pos p = st.pos p
    ∧ (execOrder ts st o).cash p = st.cash p
    ∧ (execOrder ts st o).own p = st.own p := by
  have hp : p ≠ o.symbol := fun hc => h hc.symm
  unfold execOrder
  split_ifs with h1 h2
  · exact ⟨upd_ne _ _ _ _ hp, upd_ne _ _ _ _ hp, upd_ne _ _ _ _ hp, upd_ne _ _ _ _ hp⟩
  · exact ⟨upd_ne _ _ _ _ hp, upd_ne _ _ _ _ hp, upd_ne _ _ _ _ hp, upd_ne _ _ _ _ hp⟩
  · exact ⟨rfl, rfl, rfl, rfl⟩

theorem sum_map_neg_eq (L : List ℤ) : (L.map (fun x => -x)).sum = -L.sum := by
  induction L with
  | nil => simp
  | cons x xs ih =>
    simp only [List.map_cons, List.sum_cons, ih]
    ring

theorem execOrder_self (ts : ℤ) (st : ExecSt) (o : Order)
    (hb : ∀ pv ∈ (st.depths o.symbol).buy_orders, 0 ≤ pv.2) :
    ∃ T : List Trade,
      (execOrder ts st o).own o.symbol = st.own o.symbol ++ T
      ∧ (execOrder ts st o).pos o.symbol
          = st.pos o.symbol + ((T.map signedVolume).sum)
      ∧ (∀ k : ℕ, min o.quantity 0 ≤ (((T.take k).map signedVolume).sum)
          ∧ (((T.take k).map signedVolume).sum) ≤ max o.quantity 0)
      ∧ (∀ pv ∈ ((execOrder ts st o).depths o.symbol).buy_orders, 0 ≤ pv.2) := by
  by_cases h1 : 0 < o.quantity
  · have hrun : execOrder ts st o =
      { depths := upd st.depths o.symbol
          { st.depths o.symbol with sell_orders :=
            (execBuy o.symbol ts (st.depths o.symbol).sell_orders
              (buyMatches (st.depths o.symbol).sell_orders o.price) o.quantity).book }
        pos := upd st.pos o.symbol (st.pos o.symbol +
          (execBuy o.symbol ts (st.depths o.symbol).sell_orders
            (buyMatches (st.depths o.symbol).sell_orders o.price) o.quantity).posDelta)
        cash := upd st.cash o.symbol (st.cash o.symbol +
          (execBuy o.symbol ts (st.depths o.symbol).sell_orders
            (buyMatches (st.depths o.symbol).sell_orders o.price) o.quantity).cashDelta)
        own := upd st.own o.symbol (st.own o.symbol ++
          (execBuy o.symbol ts (st.depths o.symbol).sell_orders
            (buyMatches (st.depths o.symbol).sell_orders o.price) o.quantity).trades) } := by
      unfold execOrder matchBuyOrder
      rw [if_pos h1]
    obtain ⟨hq0, hfields⟩ := execBuy_fields o.symbol ts
      (buyMatches (st.depths o.symbol).sell_orders o.price)
      (st.depths o.symbol).sell_orders o.quantity h1.le
    obtain ⟨htot1, htot2, htot3⟩ := execBuy_totals o.symbol ts
      (buyMatches (st.depths o.symbol).sell_orders o.price)
      (st.depths o.symbol).sell_orders o.quantity
    set T := (execBuy o.symbol ts (st.depths o.symbol).sell_orders
      (buyMatches (st.depths o.symbol).sell_orders o.price) o.quantity).trades with hT
    have hsv : T.map signedVolume = T.map (fun t => t.quantity) :=
      signedVolume_buy T (fun t ht => (hfields t ht).2.1)
    have hnn : ∀ x ∈ T.map (fun t => t.quantity), 0 ≤ x := by
      intro x hx
      simp only [List.mem_map] at hx
      obtain ⟨t, ht, rfl⟩ := hx
      exact (hfields t ht).2.2.2.2
    have hsum_le : (T.map (fun t => t.quantity)).sum ≤ o.quantity := by omega
    refine ⟨T, ?_, ?_, ?_, ?_⟩
    · rw [hrun]
      exact upd_self _ _ _
    · have h5 : (execOrder ts st o).pos o.symbol = st.pos o.symbol +
        (execBuy o.symbol ts (st.depths o.symbol).sell_orders
          (buyMatches (st.depths o.symbol).sell_orders o.price) o.quantity).posDelta := by
        rw [hrun]
        exact upd_self _ _ _
      rw [h5, htot1, ← hsv]
    · intro k
      rw [List.map_take, hsv]
      obtain ⟨hb1, hb2⟩ := take_sum_bounds (T.map (fun t => t.quantity)) k hnn
      rw [min_eq_right h1.le, max_eq_left h1.le]
      constructor <;> omega
    · have hd : (execOrder ts st o).depths o.symbol =
        { st.depths o.symbol with sell_orders :=
          (execBuy o.symbol ts (st.depths o.symbol).sell_orders
            (buyMatches (st.depths o.symbol).sell_orders o.price) o.quantity).book } := by
        rw [hrun]
        exact upd_self _ _ _
      rw [hd]
      exact hb
  · by_cases h2 : o.quantity < 0
    · have hrun : execOrder ts st o =
        { depths := upd st.depths o.symbol
            { st.depths o.symbol with buy_orders :=
              (execSell o.symbol ts (st.depths o.symbol).buy_orders
                (sellMatches (st.depths o.symbol).buy_orders o.price) o.quantity).book }
          pos := upd st.pos o.symbol (st.pos o.symbol +
            (execSell o.symbol ts (st.depths o.symbol).buy_orders
              (sellMatches (st.depths o.symbol).buy_orders o.price) o.quantity).posDelta)
          cash := upd st.cash o.symbol (st.cash o.symbol +
            (execSell o.symbol ts (st.depths o.symbol).buy_orders
              (sellMatches (st.depths o.symbol).buy_orders o.price) o.quantity).cashDelta)
          own := upd st.own o.symbol (st.own o.symbol ++
            (execSell o.symbol ts (st.depths o.symbol).buy_orders
              (sellMatches (st.depths o.symbol).buy_orders o.price) o.quantity).trades) } := by
        unfold execOrder matchSellOrder
        rw [if_neg h1, if_pos h2]
      obtain ⟨hq0, hbook, hfields⟩ := execSell_fields o.symbol ts
        (sellMatches (st.depths o.symbol).buy_orders o.price)
        (st.depths o.symbol).buy_orders o.quantity h2.le hb
      obtain ⟨htot1, htot2, htot3⟩ := execSell_totals o.symbol ts
        (sellMatches (st.depths o.symbol).buy_orders o.price)
        (st.depths o.symbol).buy_orders o.quantity
      set T := (execSell o.symbol ts (st.depths o.symbol).buy_orders
        (sellMatches (st.depths o.symbol).buy_orders o.price) o.quantity).trades with hT
      have hsv : T.map signedVolume = (T.map (fun t => t.quantity)).map (fun x => -x) := by
        rw [signedVolume_sell T (fun t ht => (hfields t ht).2.1), List.map_map]
        rfl
      have hnn : ∀ x ∈ T.map (fun t => t.quantity), 0 ≤ x := by
        intro x hx
        simp only [List.mem_map] at hx
        obtain ⟨t, ht, rfl⟩ := hx
        exact (hfields t ht).2.2.2.2
      have hsum_le : (T.map (fun t => t.quantity)).sum ≤ -o.quantity := by omega
      refine ⟨T, ?_, ?_, ?_, ?_⟩
      · rw [hrun]
        exact upd_self _ _ _
      · have h5 : (execOrder ts st o).pos o.symbol = st.pos o.symbol +
          (execSell o.symbol ts (st.depths o.symbol).buy_orders
            (sellMatches (st.depths o.symbol).buy_orders o.price) o.quantity).posDelta := by
          rw [hrun]
          exact upd_self _ _ _
        rw [h5, htot1, hsv, sum_map_neg_eq]
      · intro k
        rw [List.map_take, hsv, ← List.map_take, sum_map_neg_eq]
        obtain ⟨hb1, hb2⟩ := take_sum_bounds (T.map (fun t => t.quantity)) k hnn
        rw [min_eq_left h2.le, max_eq_right h2.le]
        constructor <;> omega
      · have hd : (execOrder ts st o).depths o.symbol =
          { st.depths o.symbol with buy_orders :=
            (execSell o.symbol ts (st.depths o.symbol).buy_orders
              (sellMatches (st.depths o.symbol).buy_orders o.price) o.quantity).book } := by
          rw [hrun]
          exact upd_self _ _ _
        rw [hd]
        exact hbook
    · have hrun : execOrder ts st o = st := by
        unfold execOrder
        rw [if_neg h1, if_neg h2]
      have h0 : o.quantity = 0 := by omega
      refine ⟨[], ?_, ?_, ?_, ?_⟩
      · rw [hrun, List.append_nil]
      · rw [hrun]
        simp
      · intro k
        simp [h0]
      · rw [hrun]
        exact hb

theorem processOrders_bounds (ts : ℤ) (p : String) (os : List Order) :
    ∀ (st : ExecSt),
      (∀ o ∈ os, o.symbol = p) →
      (∀ pv ∈ (st.depths p).buy_orders, 0 ≤ pv.2) →
      ∃ T : List Trade,
        (processOrders ts st os).own p = st.own p ++ T
        ∧ (processOrders ts st os).pos p = st.pos p + ((T.map signedVolume).sum)
        ∧ (∀ k : ℕ, -(total_short os) ≤ (((T.take k).map signedVolume).sum)
            ∧ (((T.take k).map signedVolume).sum) ≤ total_long os) := by
  induction os with
  | nil =>
    intro st _ _
    refine ⟨[], ?_, ?_, ?_⟩
    · simp [processOrders]
    · simp [processOrders]
    · intro k
      simp [total_short, total_long]
  | cons o os ih =>
    intro st hsym hb
    have ho : o.symbol = p := hsym o (List.mem_cons_self _ _)
    have hb0 : ∀ pv ∈ (st.depths o.symbol).buy_orders, 0 ≤ pv.2 := by
      rw [ho]
      exact hb
    obtain ⟨T1, e1, e2, e3, e4⟩ := execOrder_self ts st o hb0
    rw [ho] at e1 e2 e4
    have hstep : processOrders ts st (o :: os) = processOrders ts (execOrder ts st o) os := rfl
    obtain ⟨T2, f1, f2, f3⟩ := ih (execOrder ts st o)
      (fun q hq => hsym q (List.mem_cons_of_mem _ hq)) e4
    refine ⟨T1 ++ T2, ?_, ?_, ?_⟩
    · rw [hstep, f1, e1, List.append_assoc]
    · rw [hstep, f2, e2, List.map_append, List.sum_append]
      ring
    · intro k
      rw [List.take_append_eq_append_take, List.map_append, List.sum_append]
      obtain ⟨g1, g2⟩ := e3 k
      obtain ⟨g3, g4⟩ := f3 (k - T1.length)
      rw [total_long_cons, total_short_cons]
      have hLn := total_long_nonneg os
      have hSn := total_short_nonneg os
      split_ifs <;> constructor <;> omega

/-- C1: for a starting position within the configured limit and a batch
of orders for a tradable product that the limit guard accepts, the
signed position stays within the limit after every intermediate fill of
the batch and after the whole batch has been matched. -/
theorem position_limit_invariant (ts limit : ℤ) (p : String) (st : ExecSt)
    (os : List Order) (k : ℕ)
    (hsym : ∀ o ∈ os, o.symbol = p)
    (hb : ∀ pv ∈ (st.depths p).buy_orders, 0 ≤ pv.2)
    (_hpos : |st.pos p| ≤ limit)
    (hacc : ¬ limitExceeded limit (st.pos p) os) :
    ∃ T : List Trade,
      (processOrders ts st os).own p = st.own p ++ T
      ∧ (processOrders ts st os).pos p = st.pos p + ((T.map signedVolume).sum)
      ∧ |st.pos p + (((T.take k).map signedVolume).sum)| ≤ limit
      ∧ |(processOrders ts st os).pos p| ≤ limit := by
  obtain ⟨T, e1, e2, e3⟩ := processOrders_bounds ts p os st hsym hb
  unfold limitExceeded at hacc
  push_neg at hacc
  refine ⟨T, e1, e2, ?_, ?_⟩
  · obtain ⟨g1, g2⟩ := e3 k
    rw [abs_le]
    constructor <;> omega
  · obtain ⟨g1, g2⟩ := e3 T.length
    rw [List.take_length] at g1 g2
    rw [e2, abs_le]
    constructor <;> omega

/-- Witness for C1 at a concrete book, starting position and accepted
batch of one buy and one sell order. -/
theorem position_limit_invariant_witness :
    ((∀ o ∈ [(⟨"P", 7, 5⟩ : Order), ⟨"P", 5, -3⟩], o.symbol = "P")
      ∧ (∀ pv ∈ ((fun _ : String => (⟨[(5, 4)], [(7, -10)]⟩ : OrderDepth)) "P").buy_orders,
          (0:ℤ) ≤ pv.2)
      ∧ |(10:ℤ)| ≤ 20
      ∧ ¬ limitExceeded 20 10 [⟨"P", 7, 5⟩, ⟨"P", 5, -3⟩])
    ∧ ∃ T : List Trade,
      (processOrders 0 ⟨fun _ => ⟨[(5, 4)], [(7, -10)]⟩, fun _ => 10, fun _ => 0,
          fun _ => []⟩ [⟨"P", 7, 5⟩, ⟨"P", 5, -3⟩]).own "P" = [] ++ T
      ∧ (processOrders 0 ⟨fun _ => ⟨[(5, 4)], [(7, -10)]⟩, fun _ => 10, fun _ => 0,
          fun _ => []⟩ [⟨"P", 7, 5⟩, ⟨"P", 5, -3⟩]).pos "P"
          = 10 + ((T.map signedVolume).sum)
      ∧ |10 + (((T.take 1).map signedVolume).sum)| ≤ 20
      ∧ |(processOrders 0 ⟨fun _ => ⟨[(5, 4)], [(7, -10)]⟩, fun _ => 10, fun _ => 0,
          fun _ => []⟩ [⟨"P", 7, 5⟩, ⟨"P", 5, -3⟩]).pos "P"| ≤ 20 :=
  ⟨⟨by decide, by decide, by decide, by decide⟩,
   position_limit_invariant 0 20 "P"
     ⟨fun _ => ⟨[(5, 4)], [(7, -10)]⟩, fun _ => 10, fun _ => 0, fun _ => []⟩
     [⟨"P", 7, 5⟩, ⟨"P", 5, -3⟩] 1 (by decide) (by decide) (by decide) (by decide)⟩

theorem guard_fold_spec (limits : String → ℤ) (pos : String → ℤ) (ts : ℤ) :
    ∀ (l : List String) (f : String → List Order) (rows : List SubmissionLogRow),
      l.Nodup →
      (∀ x, (l.foldl (guardStep limits pos ts) (f, rows)).1 x
        = if x ∈ l ∧ limitExceeded (limits x) (pos x) (f x) then [] else f x)
      ∧ (l.foldl (guardStep limits pos ts) (f, rows)).2
        = rows ++ (l.filter (fun x =>
            decide (limitExceeded (limits x) (pos x) (f x)))).map
            (rejectionRow ts limits) := by
  intro l
  induction l with
  | nil =>
    intro f rows _
    constructor
    · intro x
      simp
    · simp
  | cons p l ih =>
    intro f rows hnd
    obtain ⟨hp, hnd2⟩ := List.nodup_cons.1 hnd
    rw [List.foldl_cons]
    by_cases hE : limitExceeded (limits p) (pos p) (f p)
    · have hstep : guardStep limits pos ts (f, rows) p
        = (upd f p [], rows ++ [rejectionRow ts limits p]) := by
        unfold guardStep
        dsimp only
        rw [if_pos hE]
      rw [hstep]
      obtain ⟨g1, g2⟩ := ih (upd f p []) (rows ++ [rejectionRow ts limits p]) hnd2
      constructor
      · intro x
        rw [g1 x]
        by_cases hx : x = p
        · subst hx
          rw [if_neg (fun hc => hp hc.1), if_pos ⟨List.mem_cons_self _ _, hE⟩,
            upd_self]
        · rw [upd_ne f p [] x hx]
          exact if_congr (by simp [List.mem_cons, hx]) rfl rfl
      · rw [g2]
        have hfil : l.filter (fun x =>
            decide (limitExceeded (limits x) (pos x) (upd f p [] x)))
            = l.filter (fun x => decide (limitExceeded (limits x) (pos x) (f x))) := by
          apply List.filter_congr
          intro x hx
          have hxp : x ≠ p := fun hc => hp (hc ▸ hx)
          rw [upd_ne f p [] x hxp]
        rw [hfil, List.filter_cons]
        have hd : decide (limitExceeded (limits p) (pos p) (f p)) = true :=
          decide_eq_true hE
        simp only [hd, if_pos]
        simp
    · have hstep : guardStep limits pos ts (f, rows) p = (f, rows) := by
        unfold guardStep
        dsimp only
        rw [if_neg hE]
      rw [hstep]
      obtain ⟨g1, g2⟩ := ih f rows hnd2
      constructor
      · intro x
        rw [g1 x]
        by_cases hx : x = p
        · subst hx
          rw [if_neg (fun hc => hp hc.1), if_neg (fun hc => hE hc.2)]
        · exact if_congr (by simp [List.mem_cons, hx]) rfl rfl
      · rw [g2, List.filter_cons]
        have hd : decide (limitExceeded (limits p) (pos p) (f p)) = false :=
          decide_eq_false hE
        simp only [hd]
        rfl

theorem processOrders_frame (ts : ℤ) (p : String) (os : List Order) :
    ∀ st : ExecSt, (∀ o ∈ os, o.symbol ≠ p) →
      (processOrders ts st os).depths p = st.depths p
      ∧ (processOrders ts st os).pos p = st.pos p
      ∧ (processOrders ts st os).cash p = st.cash p
      ∧ (processOrders ts st os).own p = st.own p := by
  induction os with
  | nil =>
    intro st _
    exact ⟨rfl, rfl, rfl, rfl⟩
  | cons o os ih =>
    intro st hsym
    obtain ⟨e1, e2, e3, e4⟩ := execOrder_other ts st o p
      (hsym o (List.mem_cons_self _ _))
    obtain ⟨f1, f2, f3, f4⟩ := ih (execOrder ts st o)
      (fun q hq => hsym q (List.mem_cons_of_mem _ hq))
    exact ⟨f1.trans e1, f2.trans e2, f3.trans e3, f4.trans e4⟩

theorem runMatching_frame (ts : ℤ) (p : String) (l : List String) :
    ∀ (orders : String → List Order) (st : ExecSt),
      (∀ q, ∀ o ∈ orders q, o.symbol = q) → orders p = [] →
      (runMatching ts l orders st).depths p = st.depths p
      ∧ (runMatching ts l orders st).pos p = st.pos p
      ∧ (runMatching ts l orders st).cash p = st.cash p
      ∧ (runMatching ts l orders st).own p = st.own p := by
  induction l with
  | nil =>
    intro orders st _ _
    exact ⟨rfl, rfl, rfl, rfl⟩
  | cons q l ih =>
    intro orders st hwf hop
    have hstep : runMatching ts (q :: l) orders st
        = runMatching ts l orders (processOrders ts st (orders q)) := rfl
    rw [hstep]
    obtain ⟨f1, f2, f3, f4⟩ := ih orders (processOrders ts st (orders q)) hwf hop
    by_cases hq : q = p
    · subst hq
      rw [hop] at f1 f2 f3 f4
      rw [hop]
      exact ⟨f1, f2, f3, f4⟩
    · obtain ⟨e1, e2, e3, e4⟩ := processOrders_frame ts p (orders q)
        st (fun o ho => by rw [hwf q o ho]; exact hq)
      exact ⟨f1.trans e1, f2.trans e2, f3.trans e3, f4.trans e4⟩

/-- C2: when the requested buy total would push the position above the
limit or the requested sell total below the negated limit, the entire
batch of the product is dropped before matching, exactly one rejection
row naming the product and its limit is appended, and the position and
cash of the product are unchanged by the timestamp; otherwise the whole
batch proceeds to matching untouched. -/
theorem limit_guard_rejects_batch (P : SessionParams) (acc : SessionAcc) (ts : ℤ)
    (p : String) (hp : p ∈ P.tradable) (hnd : P.tradable.Nodup)
    (hwf : ∀ q, ∀ o ∈ (P.trader (stateFor P acc ts)).orders q, o.symbol = q) :
    (limitExceeded (P.limits p) (acc.positions p)
        ((P.trader (stateFor P acc ts)).orders p) →
      (stepTrace P acc ts).accepted p = []
      ∧ rejectionRow ts P.limits p ∈ (stepTrace P acc ts).rejections
      ∧ (P.tradable.filter (fun q => decide (limitExceeded (P.limits q)
          (acc.positions q) ((P.trader (stateFor P acc ts)).orders q)))).count p = 1
      ∧ (stepTimestamp P acc ts).positions p = acc.positions p
      ∧ (stepTimestamp P acc ts).seashells p = acc.seashells p)
    ∧ (¬ limitExceeded (P.limits p) (acc.positions p)
          ((P.trader (stateFor P acc ts)).orders p) →
        (stepTrace P acc ts).accepted p = (P.trader (stateFor P acc ts)).orders p)
    ∧ (stepTrace P acc ts).rejections
        = (P.tradable.filter (fun q => decide (limitExceeded (P.limits q)
            (acc.positions q) ((P.trader (stateFor P acc ts)).orders q)))).map
            (rejectionRow ts P.limits) := by
  have hg := guard_fold_spec P.limits acc.positions ts P.tradable
    (P.trader (stateFor P acc ts)).orders [] hnd
  have hacc1 : (stepTrace P acc ts).accepted
      = (P.tradable.foldl (guardStep P.limits acc.positions ts)
        ((P.trader (stateFor P acc ts)).orders, [])).1 := rfl
  have hrej : (stepTrace P acc ts).rejections
      = (P.tradable.foldl (guardStep P.limits acc.positions ts)
        ((P.trader (stateFor P acc ts)).orders, [])).2 := rfl
  have hrejspec : (stepTrace P acc ts).rejections
      = (P.tradable.filter (fun q => decide (limitExceeded (P.limits q)
          (acc.positions q) ((P.trader (stateFor P acc ts)).orders q)))).map
          (rejectionRow ts P.limits) := by
    rw [hrej, hg.2]
    simp
  refine ⟨?_, ?_, hrejspec⟩
  · intro hE
    have haccp : (stepTrace P acc ts).accepted p = [] := by
      rw [hacc1, hg.1 p, if_pos ⟨hp, hE⟩]
    have hmemf : p ∈ P.tradable.filter (fun q => decide (limitExceeded (P.limits q)
        (acc.positions q) ((P.trader (stateFor P acc ts)).orders q))) :=
      List.mem_filter.2 ⟨hp, decide_eq_true hE⟩
    have hwfacc : ∀ q, ∀ o ∈ (stepTrace P acc ts).accepted q, o.symbol = q := by
      intro q o ho
      rw [hacc1, hg.1 q] at ho
      by_cases hc : q ∈ P.tradable ∧ limitExceeded (P.limits q) (acc.positions q)
          ((P.trader (stateFor P acc ts)).orders q)
      · rw [if_pos hc] at ho
        cases ho
      · rw [if_neg hc] at ho
        exact hwf q o ho
    obtain ⟨m1, m2, m3, m4⟩ := runMatching_frame ts p P.tradable
      (stepTrace P acc ts).accepted
      { depths := (stateFor P acc ts).order_depths
        pos := acc.positions
        cash := acc.seashells
        own := fun _ => [] } hwfacc haccp
    refine ⟨haccp, ?_, ?_, ?_, ?_⟩
    · rw [hrejspec]
      exact List.mem_map_of_mem _ hmemf
    · exact List.count_eq_one_of_mem (hnd.filter _) hmemf
    · exact m2
    · exact m3
  · intro hE
    rw [hacc1, hg.1 p, if_neg (fun hc => hE hc.2)]

/-- Concrete session for the C2 witness: one tradable product and a
decision algorithm requesting fifty units against a limit of twenty. -/
def sessionC2 : SessionParams where
  trader := fun _ => ⟨fun q => if q = "A" then [⟨"A", 10, 50⟩] else [], ""⟩
  limits := fun _ => 20
  tradable := ["A"]
  non_tradable := []
  priceAt := fun _ _ => ⟨0, 0, "A", [9], [5], [11], [5], 10, 0⟩
  tradesAt := fun _ _ => []

/-- Witness for C2: the oversized batch is rejected whole, a rejection
row is emitted, and position and cash are untouched. -/
theorem limit_guard_rejects_batch_witness :
    ("A" ∈ sessionC2.tradable ∧ sessionC2.tradable.Nodup
      ∧ limitExceeded (sessionC2.limits "A") (initialAcc.positions "A")
          ((sessionC2.trader (stateFor sessionC2 initialAcc 0)).orders "A"))
    ∧ (stepTrace sessionC2 initialAcc 0).accepted "A" = []
    ∧ rejectionRow 0 sessionC2.limits "A" ∈ (stepTrace sessionC2 initialAcc 0).rejections
    ∧ (stepTimestamp sessionC2 initialAcc 0).positions "A" = initialAcc.positions "A"
    ∧ (stepTimestamp sessionC2 initialAcc 0).seashells "A" = initialAcc.seashells "A" := by
  have hwf : ∀ q, ∀ o ∈ (sessionC2.trader (stateFor sessionC2 initialAcc 0)).orders q,
      o.symbol = q := by
    intro q o ho
    revert ho
    show o ∈ (if q = "A" then [(⟨"A", 10, 50⟩ : Order)] else []) → o.symbol = q
    split_ifs with hqa
    · intro ho
      simp only [List.mem_singleton] at ho
      subst ho
      exact hqa.symm
    · intro ho
      cases ho
  have hE : limitExceeded (sessionC2.limits "A") (initialAcc.positions "A")
      ((sessionC2.trader (stateFor sessionC2 initialAcc 0)).orders "A") := by decide
  obtain ⟨h1, _, _⟩ := limit_guard_rejects_batch sessionC2 initialAcc 0 "A"
    (by decide) (by decide) hwf
  obtain ⟨a1, a2, a3, a4, a5⟩ := h1 hE
  exact ⟨⟨by decide, by decide, hE⟩, a1, a2, a4, a5⟩

/-- C5: the profit-and-loss written to the activity row of a tradable
product equals its cumulative realized cash plus the conservative
unrealized value of the position after matching: position times best ask
when short, position times best bid when long, zero when flat. -/
theorem pnl_row_spec (P : SessionParams) (acc : SessionAcc) (ts : ℤ) (p : String)
    (hp : p ∈ P.tradable) :
    tradableActivityRow ts (P.priceAt ts p) ((stepTrace P acc ts).ex.pos p)
        ((stepTrace P acc ts).ex.cash p) ∈ (stepTimestamp P acc ts).activity_logs
    ∧ (tradableActivityRow ts (P.priceAt ts p) ((stepTrace P acc ts).ex.pos p)
        ((stepTrace P acc ts).ex.cash p)).profit_loss
        = (stepTrace P acc ts).ex.cash p
          + markToMarket ((stepTrace P acc ts).ex.pos p) (P.priceAt ts p)
    ∧ ((stepTrace P acc ts).ex.pos p < 0 →
        (tradableActivityRow ts (P.priceAt ts p) ((stepTrace P acc ts).ex.pos p)
          ((stepTrace P acc ts).ex.cash p)).profit_loss
        = (stepTrace P acc ts).ex.cash p
          + (stepTrace P acc ts).ex.pos p * (P.priceAt ts p).ask_prices.headD 0)
    ∧ (0 < (stepTrace P acc ts).ex.pos p →
        (tradableActivityRow ts (P.priceAt ts p) ((stepTrace P acc ts).ex.pos p)
          ((stepTrace P acc ts).ex.cash p)).profit_loss
        = (stepTrace P acc ts).ex.cash p
          + (stepTrace P acc ts).ex.pos p * (P.priceAt ts p).bid_prices.headD 0)
    ∧ ((stepTrace P acc ts).ex.pos p = 0 →
        (tradableActivityRow ts (P.priceAt ts p) ((stepTrace P acc ts).ex.pos p)
          ((stepTrace P acc ts).ex.cash p)).profit_loss
        = (stepTrace P acc ts).ex.cash p) := by
  refine ⟨?_, rfl, ?_, ?_, ?_⟩
  · show tradableActivityRow ts (P.priceAt ts p) ((stepTrace P acc ts).ex.pos p)
      ((stepTrace P acc ts).ex.cash p) ∈ acc.activity_logs
        ++ P.tradable.map (fun q => tradableActivityRow ts (P.priceAt ts q)
            ((stepTrace P acc ts).ex.pos q) ((stepTrace P acc ts).ex.cash q))
        ++ P.non_tradable.map (fun q => observationActivityRow ts (P.priceAt ts q))
    refine List.mem_append.2 (Or.inl (List.mem_append.2 (Or.inr ?_)))
    exact List.mem_map_of_mem _ hp
  · intro hneg
    show (stepTrace P acc ts).ex.cash p
        + markToMarket ((stepTrace P acc ts).ex.pos p) (P.priceAt ts p) = _
    rw [markToMarket, if_pos hneg]
  · intro hposq
    show (stepTrace P acc ts).ex.cash p
        + markToMarket ((stepTrace P acc ts).ex.pos p) (P.priceAt ts p) = _
    rw [markToMarket, if_neg (by omega), if_pos hposq]
  · intro hz
    show (stepTrace P acc ts).ex.cash p
        + markToMarket ((stepTrace P acc ts).ex.pos p) (P.priceAt ts p) = _
    rw [markToMarket, if_neg (by omega), if_neg (by omega)]
    ring

/-- Concrete session for the C5 witness: buy five units at ten at the
first timestamp, with the best bid at twelve at the second. -/
def sessionC5 : SessionParams where
  trader := fun st => if st.timestamp = 0
    then ⟨fun q => if q = "P" then [⟨"P", 10, 5⟩] else [], ""⟩
    else ⟨fun _ => [], ""⟩
  limits := fun _ => 20
  tradable := ["P"]
  non_tradable := []
  priceAt := fun ts _ => if ts = 0
    then ⟨0, 0, "P", [9], [1], [10], [5], 10, 0⟩
    else ⟨0, 100, "P", [12], [3], [13], [1], 12, 0⟩
  tradesAt := fun _ _ => []

/-- Witness for C5, the two-trade scenario of the specification: buy
five at ten, best bid later twelve, final profit-and-loss ten. -/
theorem pnl_row_spec_witness :
    "P" ∈ sessionC5.tradable
    ∧ (stepTrace sessionC5 (stepTimestamp sessionC5 initialAcc 0) 100).ex.pos "P" = 5
    ∧ (stepTrace sessionC5 (stepTimestamp sessionC5 initialAcc 0) 100).ex.cash "P" = -50
    ∧ (tradableActivityRow 100 (sessionC5.priceAt 100 "P")
        ((stepTrace sessionC5 (stepTimestamp sessionC5 initialAcc 0) 100).ex.pos "P")
        ((stepTrace sessionC5 (stepTimestamp sessionC5 initialAcc 0) 100).ex.cash "P")).profit_loss
        = 10
    ∧ tradableActivityRow 100 (sessionC5.priceAt 100 "P")
        ((stepTrace sessionC5 (stepTimestamp sessionC5 initialAcc 0) 100).ex.pos "P")
        ((stepTrace sessionC5 (stepTimestamp sessionC5 initialAcc 0) 100).ex.cash "P")
        ∈ (stepTimestamp sessionC5 (stepTimestamp sessionC5 initialAcc 0) 100).activity_logs
    ∧ (0 < (stepTrace sessionC5 (stepTimestamp sessionC5 initialAcc 0) 100).ex.pos "P" →
        (tradableActivityRow 100 (sessionC5.priceAt 100 "P")
          ((stepTrace sessionC5 (stepTimestamp sessionC5 initialAcc 0) 100).ex.pos "P")
          ((stepTrace sessionC5 (stepTimestamp sessionC5 initialAcc 0) 100).ex.cash "P")).profit_loss
        = (stepTrace sessionC5 (stepTimestamp sessionC5 initialAcc 0) 100).ex.cash "P"
          + (stepTrace sessionC5 (stepTimestamp sessionC5 initialAcc 0) 100).ex.pos "P"
            * (sessionC5.priceAt 100 "P").bid_prices.headD 0) :=
  ⟨by decide, by decide, by decide, by decide,
   (pnl_row_spec sessionC5 (stepTimestamp sessionC5 initialAcc 0) 100 "P" (by decide)).1,
   (pnl_row_spec sessionC5 (stepTimestamp sessionC5 initialAcc 0) 100 "P" (by decide)).2.2.2.1⟩

/-- The session state handed to the decision algorithm at the k-th
replayed timestamp. -/
def sessionStateAt (P : SessionParams) (tss : List ℤ) (k : ℕ)
    (h : k < tss.length) : TradingState :=
  stateFor P (runSession P (tss.take k)) (tss.get ⟨k, h⟩)

/-- C9: the own trades produced by matching at the k-th timestamp are
exactly the own trades inside the session state passed to the decision
algorithm at the next timestamp, and the state passed at the k-th
timestamp itself carries only the trades accumulated before it. -/
theorem own_trades_visibility (P : SessionParams) (tss : List ℤ) (k : ℕ)
    (h : k + 1 < tss.length) :
    (sessionStateAt P tss (k+1) h).own_trades
      = (stepTrace P (runSession P (tss.take k))
          (tss.get ⟨k, Nat.lt_of_succ_lt h⟩)).ex.own
    ∧ (sessionStateAt P tss k (Nat.lt_of_succ_lt h)).own_trades
      = (runSession P (tss.take k)).own_trades := by
  constructor
  · have hstep : runSession P (tss.take (k+1))
        = stepTimestamp P (runSession P (tss.take k))
          (tss.get ⟨k, Nat.lt_of_succ_lt h⟩) := by
      unfold runSession
      rw [List.take_succ]
      have hk : tss[k]? = some (tss.get ⟨k, Nat.lt_of_succ_lt h⟩) := by
        rw [List.getElem?_eq_getElem (Nat.lt_of_succ_lt h)]
        rfl
      rw [hk]
      rw [List.foldl_append]
      rfl
    show (stateFor P (runSession P (tss.take (k+1)))
      (tss.get ⟨k+1, h⟩)).own_trades = _
    rw [hstep]
    rfl
  · rfl

/-- Concrete session for the C9 witness: a single fill at the first
timestamp becomes visible exactly at the second. -/
def sessionC9 : SessionParams where
  trader := fun st => if st.timestamp = 0
    then ⟨fun q => if q = "P" then [⟨"P", 10, 5⟩] else [], ""⟩
    else ⟨fun _ => [], ""⟩
  limits := fun _ => 20
  tradable := ["P"]
  non_tradable := []
  priceAt := fun ts _ => if ts = 0
    then ⟨0, 0, "P", [9], [1], [10], [5], 10, 0⟩
    else ⟨0, 100, "P", [12], [3], [13], [1], 12, 0⟩
  tradesAt := fun _ _ => []

/-- Witness for C9: the fill of timestamp zero is absent from the state
of timestamp zero and present exactly in the state of timestamp one
hundred. -/
theorem own_trades_visibility_witness :
    ((0:ℕ) + 1 < ([0, 100] : List ℤ).length)
    ∧ (sessionStateAt sessionC9 [0, 100] 1 (by decide)).own_trades "P"
        = [⟨"P", 10, 5, "SUBMISSION", "", 0⟩]
    ∧ (sessionStateAt sessionC9 [0, 100] 0 (by decide)).own_trades "P" = []
    ∧ (sessionStateAt sessionC9 [0, 100] 1 (by decide)).own_trades
        = (stepTrace sessionC9 (runSession sessionC9 (([0, 100] : List ℤ).take 0))
            (([0, 100] : List ℤ).get ⟨0, by decide⟩)).ex.own :=
  ⟨by decide, by decide, by decide,
   (own_trades_visibility sessionC9 [0, 100] 0 (by decide)).1⟩

theorem foldl_upd_absent {α : Type} (g : ActivityLogRow → α) (p : String) :
    ∀ (S : List ActivityLogRow) (z : String → α),
      S.filter (fun q => q.product == p) = [] →
      (S.foldl (fun f q => upd f q.product (g q)) z) p = z p := by
  intro S
  induction S with
  | nil =>
    intro z _
    rfl
  | cons s S ih =>
    intro z hf
    rw [List.filter_cons] at hf
    by_cases hs : s.product = p
    · rw [if_pos (by simp [hs])] at hf
      cases hf
    · rw [if_neg (by simp [hs])] at hf
      rw [List.foldl_cons, ih _ hf]
      exact upd_ne z s.product (g s) p (fun hc => hs hc.symm)

theorem foldl_upd_unique {α : Type} (g : ActivityLogRow → α) (p : String) :
    ∀ (S : List ActivityLogRow) (z : String → α) (r : ActivityLogRow),
      S.filter (fun q => q.product == p) = [r] →
      (S.foldl (fun f q => upd f q.product (g q)) z) p = g r := by
  intro S
  induction S with
  | nil =>
    intro z r hf
    cases hf
  | cons s S ih =>
    intro z r hf
    rw [List.filter_cons] at hf
    by_cases hs : s.product = p
    · rw [if_pos (by simp [hs])] at hf
      have hsr : s = r := by
        injection hf with h1 _
      have hrest : S.filter (fun q => q.product == p) = [] := by
        injection hf with _ h2
      rw [List.foldl_cons, foldl_upd_absent g p S _ hrest]
      rw [← hsr, ← hs, upd_self]
    · rw [if_neg (by simp [hs])] at hf
      rw [List.foldl_cons, ih _ r hf]

theorem plOffsets_false (rows : List ActivityLogRow) (lastTs : ℤ) :
    ∀ x, plOffsets false rows lastTs x = 0 := by
  have hgen : ∀ (S : List ActivityLogRow) (z : String → ℤ) (x : String), z x = 0 →
      (S.foldl (fun f q => upd f q.product
        (if (false : Bool) then q.profit_loss else 0)) z) x = 0 := by
    intro S
    induction S with
    | nil =>
      intro z x hz
      exact hz
    | cons s S ih =>
      intro z x hz
      rw [List.foldl_cons]
      apply ih
      by_cases hx : x = s.product
      · rw [hx, upd_self]
        rfl
      · rw [upd_ne _ _ _ _ hx]
        exact hz
  intro x
  exact hgen _ _ x rfl

theorem plOffsets_true_unique (rows : List ActivityLogRow) (lastTs : ℤ)
    (p : String) (r : ActivityLogRow)
    (hr : (rows.reverse.takeWhile (fun q => q.timestamp == lastTs)).filter
        (fun q => q.product == p) = [r]) :
    plOffsets true rows lastTs p = r.profit_loss := by
  unfold plOffsets
  exact foldl_upd_unique (fun q => if (true : Bool) then q.profit_loss else 0)
    p _ _ r hr

/-- C7: merging with continuity enabled adds, to the profit-and-loss of
every rebased activity row of the later result, the final
profit-and-loss of the earlier result for the same product; with the
flag disabled the rebased rows keep their profit-and-loss unchanged. -/
theorem merge_pnl_continuity (a b : DayResult) (p : String) (r : ActivityLogRow)
    (ha : a.sandbox_logs ≠ [])
    (hr : (a.activity_logs.reverse.takeWhile
        (fun q => q.timestamp == (a.sandbox_logs.getLast ha).timestamp)).filter
        (fun q => q.product == p) = [r]) :
    (∀ flag : Bool, (merge_results a b flag).activity_logs
      = a.activity_logs ++ b.activity_logs.map (fun q => q.with_offset
          ((a.sandbox_logs.getLast ha).timestamp + 100)
          (plOffsets flag a.activity_logs
            (a.sandbox_logs.getLast ha).timestamp q.product)))
    ∧ plOffsets true a.activity_logs (a.sandbox_logs.getLast ha).timestamp p
        = r.profit_loss
    ∧ (∀ q : ActivityLogRow, q.product = p →
        (q.with_offset ((a.sandbox_logs.getLast ha).timestamp + 100)
          (plOffsets true a.activity_logs
            (a.sandbox_logs.getLast ha).timestamp q.product)).profit_loss
        = q.profit_loss + r.profit_loss)
    ∧ (∀ (q : ActivityLogRow) (toff : ℤ),
        (q.with_offset toff
          (plOffsets false a.activity_logs
            (a.sandbox_logs.getLast ha).timestamp q.product)).profit_loss
        = q.profit_loss) := by
  have hlast : ((a.sandbox_logs.getLast?).map SandboxLogRow.timestamp).getD 0
      = (a.sandbox_logs.getLast ha).timestamp := by
    rw [List.getLast?_eq_getLast _ ha]
    rfl
  refine ⟨?_, plOffsets_true_unique _ _ _ _ hr, ?_, ?_⟩
  · intro flag
    show a.activity_logs ++ b.activity_logs.map (fun q => q.with_offset
        (((a.sandbox_logs.getLast?).map SandboxLogRow.timestamp).getD 0 + 100)
        (plOffsets flag a.activity_logs
          (((a.sandbox_logs.getLast?).map SandboxLogRow.timestamp).getD 0)
          q.product)) = _
    rw [hlast]
  · intro q hq
    show q.profit_loss + plOffsets true a.activity_logs
        (a.sandbox_logs.getLast ha).timestamp q.product = _
    rw [hq, plOffsets_true_unique _ _ _ _ hr]
  · intro q toff
    show q.profit_loss + plOffsets false a.activity_logs
        (a.sandbox_logs.getLast ha).timestamp q.product = _
    rw [plOffsets_false]
    ring

/-- Activity rows for the C7 witness. -/
def rowA0 : ActivityLogRow :=
  ⟨0, 0, "P", none, none, none, none, none, none, none, none, none, none,
    none, none, 10, 3⟩

/-- Final activity row of the earlier result in the C7 witness. -/
def rowA1 : ActivityLogRow :=
  ⟨0, 100, "P", none, none, none, none, none, none, none, none, none, none,
    none, none, 10, 7⟩

/-- Activity row of the later result in the C7 witness. -/
def rowB0 : ActivityLogRow :=
  ⟨0, 0, "P", none, none, none, none, none, none, none, none, none, none,
    none, none, 10, 5⟩

/-- Earlier day result for the C7 witness. -/
def dayA7 : DayResult := ⟨0, 0, [⟨0, "x"⟩, ⟨100, "y"⟩], [], [rowA0, rowA1]⟩

/-- Later day result for the C7 witness. -/
def dayB7 : DayResult := ⟨0, 0, [⟨0, "z"⟩], [], [rowB0]⟩

/-- Witness for C7: with continuity the later row carries five plus
seven, without it the values are untouched. -/
theorem merge_pnl_continuity_witness :
    (dayA7.sandbox_logs ≠ []
      ∧ (dayA7.activity_logs.reverse.takeWhile
          (fun q => q.timestamp
            == (dayA7.sandbox_logs.getLast (by decide)).timestamp)).filter
          (fun q => q.product == "P") = [rowA1])
    ∧ plOffsets true dayA7.activity_logs
        (dayA7.sandbox_logs.getLast (by decide)).timestamp "P" = rowA1.profit_loss
    ∧ (merge_results dayA7 dayB7 true).activity_logs.map
        (fun q => q.profit_loss) = [3, 7, 12]
    ∧ (merge_results dayA7 dayB7 false).activity_logs.map
        (fun q => q.profit_loss) = [3, 7, 5] :=
  ⟨⟨by decide, by decide⟩,
   (merge_pnl_continuity dayA7 dayB7 "P" rowA1 (by decide) (by decide)).2.1,
   by decide, by decide⟩

/-- Earlier day result for the C6 evaluation. -/
def dayA6 : DayResult := ⟨0, 0, [⟨100, "a"⟩], [⟨100, "sa"⟩], []⟩

/-- Activity row of the later result in the C6 evaluation. -/
def rowB6 : ActivityLogRow :=
  ⟨0, 40, "Q", none, none, none, none, none, none, none, none, none, none,
    none, none, 10, 5⟩

/-- Later day result for the C6 evaluation. -/
def dayB6 : DayResult := ⟨0, 0, [⟨40, "b"⟩], [⟨100, "m"⟩], [rowB6]⟩

/-- C6: evaluating the merge at a concrete input shows that diagnostic
rows and activity rows of the later result are rebased by adding the
offset (timestamp 40 becomes 240), while the rebased submission row
carries timestamp 200, the offset itself, instead of its original
timestamp 100 plus the offset, which would be 300: the submission-row
rebase replaces the timestamp with its argument rather than adding it. -/
theorem merge_submission_timestamp_replaced :
    (merge_results dayA6 dayB6 false).submission_logs.map
      SubmissionLogRow.timestamp = [100, 200]
    ∧ ((100 : ℤ) + 200 = 300 ∧ (300 : ℤ) ≠ 200)
    ∧ (merge_results dayA6 dayB6 false).sandbox_logs.map
      SandboxLogRow.timestamp = [100, 240]
    ∧ (merge_results dayA6 dayB6 false).activity_logs.map
      ActivityLogRow.timestamp = [240] := by
  refine ⟨by decide, by decide, by decide, by decide⟩

/-- C10: the merged result starts with the three log sequences of the
earlier result unchanged, and rebasing an activity row changes only its
timestamp and final profit-and-loss columns, leaving day, product, all
six book-level pairs and the mid price untouched. -/
theorem merge_prefix_and_frame (a b : DayResult) (flag : Bool)
    (q : ActivityLogRow) (toff poff : ℤ) :
    (merge_results a b flag).sandbox_logs.take a.sandbox_logs.length
      = a.sandbox_logs
    ∧ (merge_results a b flag).submission_logs.take a.submission_logs.length
      = a.submission_logs
    ∧ (merge_results a b flag).activity_logs.take a.activity_logs.length
      = a.activity_logs
    ∧ (q.with_offset toff poff).day = q.day
    ∧ (q.with_offset toff poff).product = q.product
    ∧ (q.with_offset toff poff).bid_price_1 = q.bid_price_1
    ∧ (q.with_offset toff poff).bid_volume_1 = q.bid_volume_1
    ∧ (q.with_offset toff poff).bid_price_2 = q.bid_price_2
    ∧ (q.with_offset toff poff).bid_volume_2 = q.bid_volume_2
    ∧ (q.with_offset toff poff).bid_price_3 = q.bid_price_3
    ∧ (q.with_offset toff poff).bid_volume_3 = q.bid_volume_3
    ∧ (q.with_offset toff poff).ask_price_1 = q.ask_price_1
    ∧ (q.with_offset toff poff).ask_volume_1 = q.ask_volume_1
    ∧ (q.with_offset toff poff).ask_price_2 = q.ask_price_2
    ∧ (q.with_offset toff poff).ask_volume_2 = q.ask_volume_2
    ∧ (q.with_offset toff poff).ask_price_3 = q.ask_price_3
    ∧ (q.with_offset toff poff).ask_volume_3 = q.ask_volume_3
    ∧ (q.with_offset toff poff).mid_price = q.mid_price
    ∧ (q.with_offset toff poff).timestamp = q.timestamp + toff
    ∧ (q.with_offset toff poff).profit_loss = q.profit_loss + poff := by
  refine ⟨?_, ?_, ?_, rfl, rfl, rfl, rfl, rfl, rfl, rfl, rfl, rfl, rfl, rfl,
    rfl, rfl, rfl, rfl, rfl, rfl⟩
  · show (a.sandbox_logs ++ _).take a.sandbox_logs.length = _
    exact List.take_left _ _
  · show (a.submission_logs ++ _).take a.submission_logs.length = _
    exact List.take_left _ _
  · show (a.activity_logs ++ _).take a.activity_logs.length = _
    exact List.take_left _ _

/-- Price rows exhibiting the classification mismatch of C8: product X
has an ask level but no bid level, product Y has rows with and without
bid levels. -/
def rowsC8 : List PriceRow :=
  [⟨0, 0, "X", [], [], [5], [3], 5, 0⟩,
   ⟨0, 0, "Y", [4], [2], [], [], 4, 0⟩,
   ⟨0, 100, "Y", [], [], [], [], 4, 0⟩]

/-- Counterexample for C8 as stated: product X has a quoted ask level
but the source classifies it as non-tradable because it has no bid
level, and product Y lies in both classes, so the classes do not
partition the products. -/
theorem product_classification_counterexample :
    ¬ ((("X" ∈ tradable_products rowsC8) ↔ specHasQuotedLevel rowsC8 "X")
      ∧ ¬ ("Y" ∈ tradable_products rowsC8 ∧ "Y" ∈ non_tradable_products rowsC8)) := by
  decide

/-- C8 amended: a product is classified tradable exactly when one of its
price rows has at least one bid level, and non-tradable exactly when one
of its rows has no bid levels; every product with a price row falls in
at least one class, but the classes need not be disjoint. -/
theorem product_classification (prices : List PriceRow) (p : String) :
    (p ∈ tradable_products prices
      ↔ ∃ r ∈ prices, r.product = p ∧ r.bid_prices ≠ [])
    ∧ (p ∈ non_tradable_products prices
      ↔ ∃ r ∈ prices, r.product = p ∧ r.bid_prices = [])
    ∧ ((∃ r ∈ prices, r.product = p) →
        p ∈ tradable_products prices ∨ p ∈ non_tradable_products prices) := by
  have h1 : p ∈ tradable_products prices
      ↔ ∃ r ∈ prices, r.product = p ∧ r.bid_prices ≠ [] := by
    unfold tradable_products
    rw [List.mem_map]
    constructor
    · rintro ⟨r, hr, rfl⟩
      obtain ⟨hrm, hrl⟩ := List.mem_filter.1 hr
      refine ⟨r, hrm, rfl, ?_⟩
      have : 0 < r.bid_prices.length := of_decide_eq_true hrl
      exact List.length_pos.1 this
    · rintro ⟨r, hrm, rfl, hne⟩
      refine ⟨r, List.mem_filter.2 ⟨hrm, ?_⟩, rfl⟩
      exact decide_eq_true (List.length_pos.2 hne)
  have h2 : p ∈ non_tradable_products prices
      ↔ ∃ r ∈ prices, r.product = p ∧ r.bid_prices = [] := by
    unfold non_tradable_products
    rw [List.mem_map]
    constructor
    · rintro ⟨r, hr, rfl⟩
      obtain ⟨hrm, hrl⟩ := List.mem_filter.1 hr
      refine ⟨r, hrm, rfl, ?_⟩
      have : r.bid_prices.length = 0 := of_decide_eq_true hrl
      exact List.length_eq_zero.1 this
    · rintro ⟨r, hrm, rfl, he⟩
      refine ⟨r, List.mem_filter.2 ⟨hrm, ?_⟩, rfl⟩
      exact decide_eq_true (List.length_eq_zero.2 he)
  refine ⟨h1, h2, ?_⟩
  rintro ⟨r, hrm, hrp⟩
  by_cases hb : r.bid_prices = []
  · exact Or.inr (h2.2 ⟨r, hrm, hrp, hb⟩)
  · exact Or.inl (h1.2 ⟨r, hrm, hrp, hb⟩)

/-- Witness for the amended C8 at the concrete price rows. -/
theorem product_classification_witness :
    (∃ r ∈ rowsC8, r.product = "Y")
    ∧ ("Y" ∈ tradable_products rowsC8 ∨ "Y" ∈ non_tradable_products rowsC8) :=
  ⟨by decide, (product_classification rowsC8 "Y").2.2 (by decide)⟩

/-- Witness for C3 at a concrete ask book: a buy of five at limit seven
fills four at five and one at seven, the total fill being the minimum of
the quantity and the matchable resting volume. -/
theorem buy_matching_spec_witness :
    ((0:ℤ) < 5 ∧ (keysOf [(5, -4), (7, -2), (9, -1)]).Nodup)
    ∧ (matchBuyOrder [(5, -4), (7, -2), (9, -1)] 7 5 "P" 0).posDelta
        = min 5 (((buyMatches [(5, -4), (7, -2), (9, -1)] 7).map
            (fun x => |lookup0 [(5, -4), (7, -2), (9, -1)] x|)).sum)
    ∧ List.Sorted (· ≤ ·)
        ((matchBuyOrder [(5, -4), (7, -2), (9, -1)] 7 5 "P" 0).trades.map
          (fun t => t.price))
    ∧ matchBuyOrder [(5, -4), (7, -2), (9, -1)] 7 5 "P" 0
        = ⟨[(7, -1), (9, -1)], 0,
            [⟨"P", 5, 4, "SUBMISSION", "", 0⟩, ⟨"P", 7, 1, "SUBMISSION", "", 0⟩],
            5, -27⟩ :=
  ⟨⟨by decide, by decide⟩,
   (buy_matching_spec "P" 0 7 5 [(5, -4), (7, -2), (9, -1)]
     (by decide) (by decide)).2.2.2.2.2.2.1,
   (buy_matching_spec "P" 0 7 5 [(5, -4), (7, -2), (9, -1)]
     (by decide) (by decide)).1,
   by decide⟩

/-- Witness for C4 at a concrete bid book: a sell of five at limit
eleven fills three at twelve first, then two at eleven, never skipping
the better level. -/
theorem sell_matching_spec_witness :
    ((-5:ℤ) < 0 ∧ (keysOf [(12, 3), (11, 4)]).Nodup
      ∧ (∀ pv ∈ [((12:ℤ), (3:ℤ)), (11, 4)], (0:ℤ) ≤ pv.2))
    ∧ (matchSellOrder [(12, 3), (11, 4)] 11 (-5) "P" 0).posDelta
        = -(min |(-5:ℤ)| (((sellMatches [(12, 3), (11, 4)] 11).map
            (fun x => lookup0 [(12, 3), (11, 4)] x)).sum))
    ∧ List.Sorted (· ≥ ·)
        ((matchSellOrder [(12, 3), (11, 4)] 11 (-5) "P" 0).trades.map
          (fun t => t.price))
    ∧ matchSellOrder [(12, 3), (11, 4)] 11 (-5) "P" 0
        = ⟨[(11, 2)], 0,
            [⟨"P", 12, 3, "", "SUBMISSION", 0⟩, ⟨"P", 11, 2, "", "SUBMISSION", 0⟩],
            -5, 58⟩ :=
  ⟨⟨by decide, by decide, by decide⟩,
   (sell_matching_spec "P" 0 11 (-5) [(12, 3), (11, 4)]
     (by decide) (by decide) (by decide)).2.2.2.2.2.2.1,
   (sell_matching_spec "P" 0 11 (-5) [(12, 3), (11, 4)]
     (by decide) (by decide) (by decide)).1,
   by decide⟩

end Backtester
